import Mathlib

/-!
Verification of the doc-to-md HTML normalization pipeline
(src/doctomd/__init__.py) against its specification.

The document tree of BeautifulSoup is shallowly embedded as the inductive
type Node below.  Pure tree-rewriting passes of the reference become
recursive Lean functions on Node; passes that can raise an uncaught Python
exception (KeyError in fix_google_links, ValueError in extract_span_styles,
TypeError in identify_code_blocks) return Except.  External collaborators
are modelled by their observable outcome:
  - cssutils: a stylesheet is carried as its parsed rules (CssRule);
  - the lxml fragment re-parse inside fix_backticks is modelled for
    substituted strings that contain no markup metacharacters, which is
    the shape the reference always feeds it (plain text with code tags
    inserted by the regex substitution);
  - bs4 iteration over a snapshot of matches is modelled by structurally
    equivalent recursive traversals; inputs on which the reference would
    crash with an AttributeError on a decomposed node (for example nested
    sentinel spans) are totalized best-effort, and pipeline claims are
    stated conditionally on a normal return.
-/

set_option maxHeartbeats 2000000
set_option maxRecDepth 4000

namespace DocToMd

/-- A parsed CSS style rule, the outcome of the cssutils collaborator:
the selector text together with the declared properties, each a
(normalized-name, value) pair, in declaration order. -/
structure CssRule where
  selector : String
  props : List (String × String)
deriving Repr, DecidableEq

/-- The bs4 document tree.
An element has a mutable tag name, ordered attributes and ordered mixed
children; a text node is a NavigableString.  A style element is carried
with its stylesheet already parsed (see CssRule). -/
inductive Node where
  | elem (name : String) (attrs : List (String × String)) (children : List Node)
  | text (s : String)
  | style (rules : List CssRule)
deriving Repr

mutual
def nodeDecEq : (a b : Node) → Decidable (a = b)
  | .elem n a cs, .elem n2 a2 cs2 =>
    if h1 : n = n2 then
      if h2 : a = a2 then
        match nodeListDecEq cs cs2 with
        | isTrue h3 => isTrue (by rw [h1, h2, h3])
        | isFalse h3 => isFalse (fun h => by injection h with _ _ hc; exact h3 hc)
      else isFalse (fun h => by injection h with _ ha _; exact h2 ha)
    else isFalse (fun h => by injection h with hn _ _; exact h1 hn)
  | .elem _ _ _, .text _ => isFalse (fun h => Node.noConfusion h)
  | .elem _ _ _, .style _ => isFalse (fun h => Node.noConfusion h)
  | .text _, .elem _ _ _ => isFalse (fun h => Node.noConfusion h)
  | .text s, .text s2 =>
    if h : s = s2 then isTrue (by rw [h])
    else isFalse (fun hh => by injection hh with he; exact h he)
  | .text _, .style _ => isFalse (fun h => Node.noConfusion h)
  | .style _, .elem _ _ _ => isFalse (fun h => Node.noConfusion h)
  | .style _, .text _ => isFalse (fun h => Node.noConfusion h)
  | .style r, .style r2 =>
    if h : r = r2 then isTrue (by rw [h])
    else isFalse (fun hh => by injection hh with he; exact h he)
def nodeListDecEq : (a b : List Node) → Decidable (a = b)
  | [], [] => isTrue rfl
  | [], _ :: _ => isFalse (fun h => List.noConfusion h)
  | _ :: _, [] => isFalse (fun h => List.noConfusion h)
  | x :: xs, y :: ys =>
    match nodeDecEq x y, nodeListDecEq xs ys with
    | isTrue h1, isTrue h2 => isTrue (by rw [h1, h2])
    | isFalse h1, _ => isFalse (fun h => by injection h with hh _; exact h1 hh)
    | _, isFalse h2 => isFalse (fun h => by injection h with _ ht; exact h2 ht)
end

instance : DecidableEq Node := nodeDecEq

mutual
/-- Size of a node, used as termination measure for the passes that
splice children into the parent list (unwrap). -/
def Node.size : Node → Nat
  | .elem _ _ cs => 1 + sizeList cs
  | _ => 1
def sizeList : List Node → Nat
  | [] => 0
  | x :: xs => Node.size x + sizeList xs
end

/-- Python dict-style attribute lookup (first match). -/
def lookupAttr (k : String) : List (String × String) → Option String
  | [] => none
  | (k', v) :: rest => if k' = k then some v else lookupAttr k rest

/-- Python dict-style attribute assignment: replace the value in place if
the key exists, otherwise append the new pair at the end. -/
def setAttrVal (k v : String) (attrs : List (String × String)) :
    List (String × String) :=
  if (lookupAttr k attrs).isSome then
    attrs.map (fun p => if p.1 = k then (k, v) else p)
  else attrs ++ [(k, v)]

/-- Characters Python str.strip and the regex class backslash-s treat as
whitespace (the subset that can occur in these documents, including the
no-break space). -/
def pyIsSpace (c : Char) : Bool :=
  c = ' ' || c = '\t' || c = '\n' || c = '\r' ||
  c = Char.ofNat 11 || c = Char.ofNat 12 || c = Char.ofNat 160

def dropWhileList (p : Char → Bool) : List Char → List Char
  | [] => []
  | c :: cs => if p c then dropWhileList p cs else c :: cs

/-- Python str.strip with a character predicate: drop matching characters
from both ends. -/
def stripWith (p : Char → Bool) (s : String) : String :=
  String.mk ((dropWhileList p ((dropWhileList p s.toList.reverse).reverse)))

/-- Python str.strip (whitespace). -/
def pyStrip (s : String) : String := stripWith pyIsSpace s

/-- Python str.lower, for the ASCII range used by the font names. -/
def pyLower (s : String) : String := String.mk (s.toList.map Char.toLower)

def isPrefixOfList : List Char → List Char → Bool
  | [], _ => true
  | _ :: _, [] => false
  | a :: as, b :: bs => a = b && isPrefixOfList as bs

def containsSubAux (pat : List Char) : List Char → Bool
  | [] => isPrefixOfList pat []
  | c :: cs => isPrefixOfList pat (c :: cs) || containsSubAux pat cs

/-- Python substring containment: pat in s. -/
def containsSub (pat s : String) : Bool := containsSubAux pat.toList s.toList

def containsChar (c : Char) (s : String) : Bool := s.toList.contains c

/-- Python str.split with no argument: split on whitespace runs, dropping
empty fields.  bs4 applies this to the class attribute to obtain the list
of classes of a tag. -/
def splitWsAux : List Char → List Char → List String
  | acc, [] => if acc.isEmpty then [] else [String.mk acc.reverse]
  | acc, c :: cs =>
    if pyIsSpace c then
      (if acc.isEmpty then id else fun r => String.mk acc.reverse :: r)
        (splitWsAux [] cs)
    else splitWsAux (c :: acc) cs

def splitWs (s : String) : List String := splitWsAux [] s.toList

/-- The classes of a tag: bs4 stores the class attribute multi-valued,
split on whitespace. -/
def classesOf (attrs : List (String × String)) : List String :=
  match lookupAttr "class" attrs with
  | none => []
  | some v => splitWs v

/-- Does the class list of the tag intersect the given class set?  This is
how find_all matches a list or set passed as the class filter. -/
def classMatches (classSet : List String) (attrs : List (String × String)) :
    Bool :=
  (classesOf attrs).any (fun c => classSet.contains c)

/-- bs4 tag.string: a single text child gives its string, a single element
child gives that childs string, anything else gives none. -/
def Node.string? : Node → Option String
  | .text s => some s
  | .elem _ _ [c] => c.string?
  | _ => none

mutual
/-- Concatenation of all descendant text, in document order (the join of
tag.strings after smoothing). -/
def Node.textContent : Node → String
  | .text s => s
  | .elem _ _ cs => textContentList cs
  | .style _ => ""
def textContentList : List Node → String
  | [] => ""
  | x :: xs => Node.textContent x ++ textContentList xs
end

/-! ### remove_ids / remove_classes / remove_styles -/

mutual
/-- Source remove_ids, remove_classes, remove_styles: each deletes one
attribute key from every tag of the tree. -/
def removeAttrN (k : String) : Node → Node
  | .elem n a cs => .elem n (a.filter (fun p => !(p.1 = k))) (removeAttrL k cs)
  | x => x
def removeAttrL (k : String) : List Node → List Node
  | [] => []
  | x :: xs => removeAttrN k x :: removeAttrL k xs
end

def removeIds (doc : List Node) : List Node := removeAttrL "id" doc
def removeClasses (doc : List Node) : List Node := removeAttrL "class" doc
def removeStyles (doc : List Node) : List Node := removeAttrL "style" doc

/-- The attribute stripper: the three attribute passes in pipeline order. -/
def stripAttributes (doc : List Node) : List Node :=
  removeStyles (removeClasses (removeIds doc))

/-! ### remove_empty_paras -/

mutual
/-- First loop of remove_empty_paras: unwrap every span (replace it by its
children, recursively, matching the snapshot of all spans). -/
def unwrapSpansN : Node → List Node
  | .elem n a cs =>
    if n = "span" then unwrapSpansL cs else [.elem n a (unwrapSpansL cs)]
  | x => [x]
def unwrapSpansL : List Node → List Node
  | [] => []
  | x :: xs => unwrapSpansN x ++ unwrapSpansL xs
end

mutual
/-- Second loop of remove_empty_paras: unwrap (that is, drop, since they
have no children) every p whose child list is empty.  The candidates are
snapshotted before any removal, so the emptiness test is made top-down on
the tree as it stood when the loop started: a p that becomes empty only
because an empty descendant p was dropped is kept. -/
def removeEmptyPsN : Node → List Node
  | .elem n a cs =>
    if n = "p" && cs.isEmpty then [] else [.elem n a (removeEmptyPsL cs)]
  | x => [x]
def removeEmptyPsL : List Node → List Node
  | [] => []
  | x :: xs => removeEmptyPsN x ++ removeEmptyPsL xs
end

/-- Source remove_empty_paras: unwrap all spans, then drop the p elements
that are left with no contents. -/
def removeEmptyParas (doc : List Node) : List Node :=
  removeEmptyPsL (unwrapSpansL doc)

/-! ### remove_single_cell_tables -/

mutual
/-- Number of descendant elements with the given tag name
(find_all(name) counts descendants at any depth). -/
def countTagN (nm : String) : Node → Nat
  | .elem n _ cs => (if n = nm then 1 else 0) + countTagL nm cs
  | _ => 0
def countTagL (nm : String) : List Node → Nat
  | [] => 0
  | x :: xs => countTagN nm x + countTagL nm xs
end

mutual
/-- First descendant element with the given tag name, in document
(preorder) order: find(name) / find_all(name)[0]. -/
def findTagN (nm : String) : Node → Option Node
  | .elem n a cs => if n = nm then some (.elem n a cs) else findTagL nm cs
  | _ => none
def findTagL (nm : String) : List Node → Option Node
  | [] => none
  | x :: xs =>
    match findTagN nm x with
    | some r => some r
    | none => findTagL nm xs
end

mutual
/-- Unwrap (replace by its children) the first descendant td, in preorder:
cells[0].unwrap(). -/
def unwrapFirstTdN : Node → Option (List Node)
  | .elem n a cs =>
    if n = "td" then some cs
    else
      match unwrapFirstTdL cs with
      | some cs' => some [Node.elem n a cs']
      | none => none
  | _ => none
def unwrapFirstTdL : List Node → Option (List Node)
  | [] => none
  | x :: xs =>
    match unwrapFirstTdN x with
    | some xl => some (xl ++ xs)
    | none =>
      match unwrapFirstTdL xs with
      | some xs' => some (x :: xs')
      | none => none
end

mutual
/-- Unwrap the first descendant tr, in preorder, after first unwrapping
the first td inside it: cells[0].unwrap(); rows[0].unwrap(). -/
def unwrapFirstTrN : Node → Option (List Node)
  | .elem n a cs =>
    if n = "tr" then some ((unwrapFirstTdL cs).getD cs)
    else
      match unwrapFirstTrL cs with
      | some cs' => some [Node.elem n a cs']
      | none => none
  | _ => none
def unwrapFirstTrL : List Node → Option (List Node)
  | [] => none
  | x :: xs =>
    match unwrapFirstTrN x with
    | some xl => some (xl ++ xs)
    | none =>
      match unwrapFirstTrL xs with
      | some xs' => some (x :: xs')
      | none => none
end

/-- Does the table qualify: exactly one descendant tr, and exactly one
descendant td inside that tr (len(rows) == 1 and len(cells) == 1). -/
def isSingleCell (tableChildren : List Node) : Bool :=
  countTagL "tr" tableChildren = 1 &&
  (match findTagL "tr" tableChildren with
   | some (.elem _ _ trCs) => countTagL "td" trCs = 1
   | _ => false)

/-- The replacement sequence for a qualifying table: unwrap the cell, the
row and the table itself (three unwrap calls of the source). -/
def singleCellSplice (tableChildren : List Node) : List Node :=
  (unwrapFirstTrL tableChildren).getD tableChildren

mutual
/-- Source remove_single_cell_tables.  The reference iterates over a
snapshot of all tables in document order; an outer table is decided on its
then-unmodified subtree, and a qualifying tables spliced content cannot
contain a tr (the single tr was just unwrapped), hence contains no table
that could later qualify, so the splice needs no further processing.  The
structural top-down recursion below is therefore equivalent. -/
def removeSingleCellTablesN : Node → List Node
  | .elem n a cs =>
    if n = "table" && isSingleCell cs then singleCellSplice cs
    else [.elem n a (removeSingleCellTablesL cs)]
  | x => [x]
def removeSingleCellTablesL : List Node → List Node
  | [] => []
  | x :: xs => removeSingleCellTablesN x ++ removeSingleCellTablesL xs
end

/-! ### process_building_block_code -/

/-- The start sentinel character U+EC03 emitted by the code building
block feature. -/
def sentinelStart : String := "\uEC03"

/-- The end sentinel character U+EC02. -/
def sentinelEnd : String := "\uEC02"

/-- A span whose entire string is the start sentinel: what
find_all matches for the span name with the start sentinel string. -/
def isStartSpan : Node → Bool
  | .elem n a cs => n = "span" && Node.string? (.elem n a cs) == some sentinelStart
  | _ => false

/-- A span whose entire string is the end sentinel. -/
def isEndSpan : Node → Bool
  | .elem n a cs => n = "span" && Node.string? (.elem n a cs) == some sentinelEnd
  | _ => false

/-- Does the element have a start-sentinel span among its direct children
(is it the parent of some matched start span)? -/
def hasDirectStartSpan : Node → Bool
  | .elem _ _ cs => cs.any isStartSpan
  | _ => false

def removeFirstBy (p : Node → Bool) : List Node → List Node
  | [] => []
  | x :: xs => if p x then xs else x :: removeFirstBy p xs

/-- start_span.decompose(): delete the (first) start-sentinel span from
the paragraphs direct children. -/
def removeFirstDirectStartSpan : Node → Node
  | .elem n a cs => .elem n a (removeFirstBy isStartSpan cs)
  | x => x

mutual
/-- Is there an end-sentinel span among the descendants
(para.find with the span name and the end sentinel string)? -/
def hasEndSpanL : List Node → Bool
  | [] => false
  | x :: xs => isEndSpan x || hasEndSpanInsideN x || hasEndSpanL xs
def hasEndSpanInsideN : Node → Bool
  | .elem _ _ cs => hasEndSpanL cs
  | _ => false
end

mutual
/-- end_span.decompose(): delete the first end-sentinel span, in document
(preorder) order, from the descendants. -/
def removeEndSpanL : List Node → Option (List Node)
  | [] => none
  | x :: xs =>
    if isEndSpan x then some xs
    else
      match removeEndSpanN x with
      | some x' => some (x' :: xs)
      | none =>
        match removeEndSpanL xs with
        | some xs' => some (x :: xs')
        | none => none
def removeEndSpanN : Node → Option Node
  | .elem n a cs =>
    (match removeEndSpanL cs with
     | some cs' => some (Node.elem n a cs')
     | none => none)
  | _ => none
end

mutual
/-- The strings of a line after every br descendant was replaced with a
newline character: what flatten_html_line joins.  A br replaced with a
newline loses its children, and a style node contributes no strings in
this model. -/
def lineStringsN : Node → String
  | .text s => s
  | .elem n _ cs => if n = "br" then "\n" else lineStringsL cs
  | .style _ => ""
def lineStringsL : List Node → String
  | [] => ""
  | x :: xs => lineStringsN x ++ lineStringsL xs
end

mutual
/-- The regex substitution of flatten_html_line: every newline followed by
a whitespace run becomes a single space (countering br soft-wrapping). -/
def collapseNlAux : List Char → List Char
  | [] => []
  | [c] => [c]
  | c :: d :: rest2 =>
    if c = '\n' && pyIsSpace d then ' ' :: skipWsThen rest2
    else c :: collapseNlAux (d :: rest2)
def skipWsThen : List Char → List Char
  | [] => []
  | c :: rest => if pyIsSpace c then skipWsThen rest else c :: collapseNlAux rest
end

/-- Source flatten_html_line: replace br elements with newlines, coalesce,
join the strings and collapse newline-plus-whitespace into one space. -/
def flattenHtmlLine (line : Node) : String :=
  String.mk (collapseNlAux (lineStringsN line).toList)

/-- str.maketrans of the no-break space to a plain space, applied to the
joined block text. -/
def nbspToSpace (s : String) : String :=
  String.mk (s.toList.map (fun c => if c = Char.ofNat 160 then ' ' else c))

/-- The text of one collected building block: the flattened lines joined
with newlines, with no-break spaces replaced. -/
def blockText (lines : List Node) : String :=
  nbspToSpace (String.intercalate "\n" (lines.map flattenHtmlLine))

mutual
/-- Source process_building_block_code over a sibling list.  The reference
iterates a snapshot of the start-sentinel spans in document order; spans
deeper inside an element come first, so children are processed before the
element itself is tested for being a start paragraph.  Collected
paragraphs are deleted wholesale, so their interiors are not processed
(on inputs where they would contain further sentinel spans the reference
crashes on the decomposed span; this model simply drops them). -/
def processBuildingBlockCodeL : List Node → List Node
  | [] => []
  | x :: rest =>
    let x2 := processBuildingBlockCodeN x
    if hasDirectStartSpan x2 then
      collectLines [removeFirstDirectStartSpan x2] [] rest
    else x2 :: processBuildingBlockCodeL rest

/-- One sibling with its interior building blocks processed. -/
def processBuildingBlockCodeN : Node → Node
  | .elem n a cs => .elem n a (processBuildingBlockCodeL cs)
  | x => x

/-- The sibling scan of process_building_block_code: collect every
following Tag sibling, stopping inclusively at the first containing an
end-sentinel span (which is deleted); non-Tag siblings are skipped and
stay in place after the new pre.  If no end sentinel is found the scan
collects to the end of the sibling list.  On exit: the pre holding the
block text, then the skipped non-Tag siblings, then the processed
remainder. -/
def collectLines (linesRev keptRev : List Node) : List Node → List Node
  | [] =>
    Node.elem "pre" [] [Node.text (blockText linesRev.reverse)] :: keptRev.reverse
  | y :: ys =>
    match y with
    | .elem n a cs =>
      if hasEndSpanL cs then
        Node.elem "pre" []
            [Node.text (blockText
              ((Node.elem n a ((removeEndSpanL cs).getD cs)) :: linesRev).reverse)] ::
          (keptRev.reverse ++ processBuildingBlockCodeL ys)
      else collectLines (Node.elem n a cs :: linesRev) keptRev ys
    | other => collectLines linesRev (other :: keptRev) ys
end

/-! ### Stylesheet interpretation -/

/-- Source is_code_font: strip whitespace, strip surrounding quote
characters, lowercase, and compare against the fixed allow-list. -/
def isCodeFont (f : String) : Bool :=
  let t := pyLower (stripWith (fun c => c = Char.ofNat 39 || c = '"') (pyStrip f))
  t = "fira mono" || t = "roboto mono" || t = "source code pro" ||
  t = "courier new" || t = "consolas"

/-- rule.selectorText.strip().strip of the leading and trailing dots. -/
def selectorClass (sel : String) : String :=
  stripWith (fun c => c = '.') (pyStrip sel)

mutual
/-- All style elements of the tree flattened to their parsed rules, in
document order: the find_all loop over style tags with cssutils parsing
of each. -/
def styleRulesN : Node → List CssRule
  | .style rules => rules
  | .elem _ _ cs => styleRulesL cs
  | _ => []
def styleRulesL : List Node → List CssRule
  | [] => []
  | x :: xs => styleRulesN x ++ styleRulesL xs
end

/-- Does a rule declare a fixed-width font-family? -/
def ruleIsCode (r : CssRule) : Bool :=
  (r.props.filter (fun p => p.1 = "font-family")).any (fun p => isCodeFont p.2)

/-- Source _extract_code_styles: the class names whose rules declare a
code font.  The reference collects a set but uses only membership, so a
list with possible duplicates is an equivalent model. -/
def extractCodeStyles (doc : List Node) : List String :=
  ((styleRulesL doc).filter ruleIsCode).map (fun r => selectorClass r.selector)

def parseDigitsAux : Option Nat → List Char → Option Nat
  | acc, [] => acc
  | acc, c :: cs =>
    if c.isDigit then parseDigitsAux (some ((acc.getD 0) * 10 + (c.toNat - 48))) cs
    else none

/-- Python int() on a string: strip whitespace, optional sign, decimal
digits; anything else raises ValueError (modelled as none). -/
def pyInt (s : String) : Option Int :=
  match (pyStrip s).toList with
  | [] => none
  | c :: rest =>
    if c = '-' then (parseDigitsAux none rest).map (fun n => -(n : Int))
    else if c = '+' then (parseDigitsAux none rest).map (fun n => (n : Int))
    else (parseDigitsAux none (c :: rest)).map (fun n => (n : Int))

/-- Python dict with setdefault-and-append semantics, insertion ordered. -/
def dictAdd (d : List (String × List String)) (k v : String) :
    List (String × List String) :=
  if d.any (fun p => p.1 = k) then
    d.map (fun p => if p.1 = k then (p.1, p.2 ++ [v]) else p)
  else d ++ [(k, [v])]

/-- The font-weight loop of extract_span_styles for one rule: int(value)
with a non-numeric value raises ValueError; a numeric value above 400
classifies the selector as bold. -/
def addBoldProps (sel : String) (props : List (String × String))
    (d : List (String × List String)) :
    Except String (List (String × List String)) :=
  match props with
  | [] => Except.ok d
  | (k, v) :: rest =>
    if k = "font-weight" then
      match pyInt v with
      | none => Except.error "ValueError: invalid literal for int"
      | some n => addBoldProps sel rest (if n > 400 then dictAdd d "b" sel else d)
    else addBoldProps sel rest d

/-- The font-style loop of extract_span_styles for one rule. -/
def addItalicProps (sel : String) (props : List (String × String))
    (d : List (String × List String)) : List (String × List String) :=
  props.foldl
    (fun d p => if p.1 = "font-style" && p.2 = "italic" then dictAdd d "i" sel else d) d

def extractSpanStylesGo (d : List (String × List String)) :
    List CssRule → Except String (List (String × List String))
  | [] => Except.ok d
  | r :: rest => do
    let d1 ← addBoldProps (selectorClass r.selector) r.props d
    extractSpanStylesGo (addItalicProps (selectorClass r.selector) r.props d1) rest

/-- Source extract_span_styles over the whole tree: bold and italic class
lists keyed by the new tag name, in dict insertion order. -/
def extractSpanStyles (doc : List Node) :
    Except String (List (String × List String)) :=
  extractSpanStylesGo [] (styleRulesL doc)

mutual
/-- Retag every span whose class list intersects the given classes to the
new tag name (span.name assignment; children and attributes stay). -/
def retagSpansN (clss : List String) (newName : String) : Node → Node
  | .elem n a cs =>
    if n = "span" && classMatches clss a then
      Node.elem newName a (retagSpansL clss newName cs)
    else Node.elem n a (retagSpansL clss newName cs)
  | x => x
def retagSpansL (clss : List String) (newName : String) : List Node → List Node
  | [] => []
  | x :: xs => retagSpansN clss newName x :: retagSpansL clss newName xs
end

/-- Source replace_style_spans: compute the classification dict, then
retag one classification at a time in dict order.  A span matching both
classifications is only retagged by the first, since it is no longer a
span afterwards. -/
def replaceStyleSpans (doc : List Node) : Except String (List Node) := do
  let d ← extractSpanStyles doc
  Except.ok (d.foldl (fun t p => retagSpansL p.2 p.1 t) doc)

/-! ### mark_code_blocks -/

/-- A span whose class list intersects the code classes (a find_all match
for the span name with the code class set). -/
def isCodeSpan (cls : List String) : Node → Bool
  | .elem n a _ => n = "span" && classMatches cls a
  | _ => false

/-- A p, div or td container whose only child is a code-class span: one
line of a code block in the first sweep of mark_code_blocks. -/
def qualifiesBlock (cls : List String) : Node → Bool
  | .elem n _ [s] => (n = "p" || n = "div" || n = "td") && isCodeSpan cls s
  | _ => false

mutual
/-- First sweep of mark_code_blocks over one sibling list, left to right
with the already-processed prefix reversed in acc (the previous sibling
is the head of acc, matching the state the reference sees when it reaches
the span).  A qualifying container merges into a directly preceding pre
(joined with a carriage-return-newline) or becomes a pre itself; an
inline code-class span merges into a directly preceding code element or
is retagged to code.  Moved span contents are processed in their new
sibling context, as the snapshot order of the reference does. -/
def markCodeSpans (cls : List String) (acc : List Node) : List Node → List Node
  | [] => acc.reverse
  | .elem nx ax csx :: rest =>
    if qualifiesBlock cls (.elem nx ax csx) then
      let t := (Node.string? (.elem nx ax csx)).getD ""
      match acc with
      | .elem an pa pk :: acc2 =>
        if an = "pre" then
          markCodeSpans cls (.elem an pa (pk ++ [.text "\r\n", .text t]) :: acc2) rest
        else
          markCodeSpans cls
            (.elem "pre" ax [.text t] :: .elem an pa pk :: acc2) rest
      | .text s :: acc2 =>
        markCodeSpans cls (.elem "pre" ax [.text t] :: .text s :: acc2) rest
      | .style r :: acc2 =>
        markCodeSpans cls (.elem "pre" ax [.text t] :: .style r :: acc2) rest
      | [] => markCodeSpans cls [.elem "pre" ax [.text t]] rest
    else if isCodeSpan cls (.elem nx ax csx) then
      match acc with
      | .elem an ca ck :: acc2 =>
        if an = "code" then
          markCodeSpans cls
            (.elem an ca (markCodeMerge cls ck (.elem nx ax csx)) :: acc2) rest
        else
          markCodeSpans cls
            (.elem "code" ax (markCodeInto cls (.elem nx ax csx)) ::
              .elem an ca ck :: acc2) rest
      | .text s :: acc2 =>
        markCodeSpans cls
          (.elem "code" ax (markCodeInto cls (.elem nx ax csx)) :: .text s :: acc2)
          rest
      | .style r :: acc2 =>
        markCodeSpans cls
          (.elem "code" ax (markCodeInto cls (.elem nx ax csx)) :: .style r :: acc2)
          rest
      | [] =>
        markCodeSpans cls [.elem "code" ax (markCodeInto cls (.elem nx ax csx))] rest
    else
      markCodeSpans cls (.elem nx ax (markCodeInto cls (.elem nx ax csx)) :: acc) rest
  | .text s :: rest => markCodeSpans cls (.text s :: acc) rest
  | .style r :: rest => markCodeSpans cls (.style r :: acc) rest

/-- The contents of a code-class span moved into the previous inline code
element: process them in their new sibling context, whose already-final
prefix is ck. -/
def markCodeMerge (cls : List String) (ck : List Node) : Node → List Node
  | .elem _ _ csx => markCodeSpans cls ck.reverse csx
  | _ => ck

/-- Process the children of one element as their own sibling list. -/
def markCodeInto (cls : List String) : Node → List Node
  | .elem _ _ csx => markCodeSpans cls [] csx
  | _ => []
end

/-- Merge adjacent text siblings of one list (the sibling-level half of
smoothing). -/
def mergeTexts : List Node → List Node
  | [] => []
  | .text s :: rest =>
    (match mergeTexts rest with
     | .text t :: rest2 => .text (s ++ t) :: rest2
     | r => .text s :: r)
  | x :: rest => x :: mergeTexts rest

mutual
/-- bs4 smooth(): concatenate adjacent text siblings, recursively. -/
def smoothL : List Node → List Node
  | [] => []
  | x :: xs => mergeTexts (smoothN x :: smoothL xs)
def smoothN : Node → Node
  | .elem n a cs => .elem n a (smoothL cs)
  | x => x
end

mutual
/-- Second sweep of mark_code_blocks: for every code element, its direct
br children become newline text (the contents loop guarded by the
recursive br search changes nothing when there is no direct br, so the
unconditional rewrite is equivalent); a p, div or td holding a lone code
child unwraps the code and becomes a pre. -/
def resolveCodeBlocksN : Node → Node
  | .elem n a [Node.elem cn ca ck] =>
    if (n = "p" || n = "div" || n = "td") && cn = "code" then
      Node.elem "pre" a (resolveCodeBrL ck)
    else if cn = "code" then Node.elem n a [Node.elem cn ca (resolveCodeBrL ck)]
    else if n = "code" && cn = "br" then Node.elem n a [Node.text "\n"]
    else Node.elem n a [resolveCodeBlocksN (Node.elem cn ca ck)]
  | .elem n a cs =>
    if n = "code" then Node.elem n a (resolveCodeBrL cs)
    else Node.elem n a (resolveCodeBlocksL cs)
  | x => x
def resolveCodeBlocksL : List Node → List Node
  | [] => []
  | x :: xs => resolveCodeBlocksN x :: resolveCodeBlocksL xs
/-- The children of a code element with its direct br children replaced
by newline text, the rest processed as usual. -/
def resolveCodeBrL : List Node → List Node
  | [] => []
  | .elem n a cs :: xs =>
    (if n = "br" then Node.text "\n" else resolveCodeBlocksN (.elem n a cs)) ::
      resolveCodeBrL xs
  | x :: xs => resolveCodeBlocksN x :: resolveCodeBrL xs
end

/-- Source mark_code_blocks: extract the code classes, run the span
sweep, smooth, then resolve lone code elements into pre blocks. -/
def markCodeBlocks (doc : List Node) : List Node :=
  resolveCodeBlocksL (smoothL (markCodeSpans (extractCodeStyles doc) [] doc))

/-! ### fix_google_links -/

/-- The redirect regex at one position: the literal pattern with its two
unescaped dots, each matching an arbitrary character. -/
def googlePatternAt (cs : List Char) : Bool :=
  isPrefixOfList "https://www".toList cs &&
  (match cs.drop 11 with
   | _ :: r2 =>
     isPrefixOfList "google".toList r2 &&
     (match r2.drop 6 with
      | _ :: r3 => isPrefixOfList "com/url".toList r3
      | [] => false)
   | [] => false)

def googleUrlSearch : List Char → Bool
  | [] => false
  | c :: cs => googlePatternAt (c :: cs) || googleUrlSearch cs

/-- re.search of the redirect pattern anywhere in the href. -/
def matchesGoogleRedirect (href : String) : Bool := googleUrlSearch href.toList

def splitFirst (sep : Char) : List Char → Option (List Char × List Char)
  | [] => none
  | c :: cs =>
    if c = sep then some ([], cs)
    else (splitFirst sep cs).map (fun p => (c :: p.1, p.2))

/-- urlparse(href).query: the text after the first question mark, the
fragment after the first hash first removed. -/
def urlQuery (href : String) : String :=
  let noFrag :=
    match splitFirst '#' href.toList with
    | some (lhs, _) => lhs
    | none => href.toList
  match splitFirst '?' noFrag with
  | some (_, q) => String.mk q
  | none => ""

def hexVal (c : Char) : Option Nat :=
  if c.isDigit then some (c.toNat - 48)
  else if 'a' ≤ c && c ≤ 'f' then some (c.toNat - 87)
  else if 'A' ≤ c && c ≤ 'F' then some (c.toNat - 55)
  else none

/-- unquote_plus on the ASCII range: a plus becomes a space and a percent
escape below 0x80 becomes its character; other escapes are left literal
(the reference decodes them as UTF-8 byte sequences, which these hrefs
do not contain). -/
def unquotePlusAux : List Char → List Char
  | [] => []
  | '+' :: rest => ' ' :: unquotePlusAux rest
  | '%' :: a :: b :: rest =>
    (match hexVal a, hexVal b with
     | some ha, some hb =>
       if ha * 16 + hb < 128 then Char.ofNat (ha * 16 + hb) :: unquotePlusAux rest
       else '%' :: a :: b :: unquotePlusAux rest
     | _, _ => '%' :: unquotePlusAux (a :: b :: rest))
  | c :: rest => c :: unquotePlusAux rest

def unquotePlus (s : String) : String := String.mk (unquotePlusAux s.toList)

def splitAllAux (sep : Char) (acc : List Char) : List Char → List (List Char)
  | [] => [acc.reverse]
  | c :: cs =>
    if c = sep then acc.reverse :: splitAllAux sep [] cs
    else splitAllAux sep (c :: acc) cs

/-- One field of parse_qsl: an empty field, a field with no equals sign,
or a field with an empty value is dropped; otherwise name and value are
decoded with unquote_plus. -/
def qsPair (p : List Char) : Option (String × String) :=
  if p.isEmpty then none
  else
    match splitFirst '=' p with
    | none => none
    | some (nm, v) =>
      if v.isEmpty then none
      else some (unquotePlus (String.mk nm), unquotePlus (String.mk v))

/-- parse_qs(query) at key q, first value: none models the KeyError the
reference raises when the query has no usable q field. -/
def firstQValue (query : String) : Option String :=
  (((splitAllAux '&' [] query.toList).filterMap qsPair).find?
    (fun p => p.1 = "q")).map (fun p => p.2)

mutual
/-- Source fix_google_links: every anchor whose href the redirect regex
matches gets its href replaced by the first q value of the query; a
missing q is the uncaught KeyError, aborting the pass. -/
def fixGoogleLinksN : Node → Except String Node
  | .elem n a cs => do
    let a2 ←
      (match lookupAttr "href" a with
       | some h =>
         if n = "a" && matchesGoogleRedirect h then
           match firstQValue (urlQuery h) with
           | some v => Except.ok (setAttrVal "href" v a)
           | none => Except.error "KeyError: q"
         else Except.ok a
       | none => Except.ok a)
    let cs2 ← fixGoogleLinksL cs
    Except.ok (Node.elem n a2 cs2)
  | x => Except.ok x
def fixGoogleLinksL : List Node → Except String (List Node)
  | [] => Except.ok []
  | x :: xs => do
    let x2 ← fixGoogleLinksN x
    let xs2 ← fixGoogleLinksL xs
    Except.ok (x2 :: xs2)
end

/-! ### identify_code_blocks -/

/-- The join of the pre contents with the empty separator: every child
must be a string, a Tag child raises TypeError. -/
def joinTextChildren : List Node → Except String String
  | [] => Except.ok ""
  | .text s :: rest => (joinTextChildren rest).map (fun r => s ++ r)
  | _ => Except.error "TypeError: sequence item is not a str"

mutual
/-- Source identify_code_blocks: a pre whose joined text contains the
keyword substring import-plus-space or def-plus-space gets its class
attribute set to python (this runs after the class stripper, so the
marker survives). -/
def identifyCodeBlocksN : Node → Except String Node
  | .elem n a cs =>
    if n = "pre" then do
      let code ← joinTextChildren cs
      let a2 :=
        if containsSub "import " code || containsSub "def " code then
          setAttrVal "class" "python" a
        else a
      Except.ok (Node.elem n a2 cs)
    else do
      let cs2 ← identifyCodeBlocksL cs
      Except.ok (Node.elem n a cs2)
  | x => Except.ok x
def identifyCodeBlocksL : List Node → Except String (List Node)
  | [] => Except.ok []
  | x :: xs => do
    let x2 ← identifyCodeBlocksN x
    let xs2 ← identifyCodeBlocksL xs
    Except.ok (x2 :: xs2)
end

/-! ### fix_backticks -/

def textPiece (l : List Char) : List Node :=
  if l.isEmpty then [] else [Node.text (String.mk l)]

def codePiece (l : List Char) : Node :=
  Node.elem "code" [] (if l.isEmpty then [] else [Node.text (String.mk l)])

/-- The regex substitution of backtick pairs into code tags followed by
the lxml fragment re-parse, working on the string split at backticks,
with the pending literal text carried in front of the first segment.
The segment after an opening backtick closes at the next backtick only if
no newline intervenes (the regex dot does not match newlines); an
unmatched backtick stays literal text. -/
def backtickPieces (pending : List Char) : List (List Char) → List Node
  | [] => textPiece pending
  | [a] => textPiece (pending ++ a)
  | [a, b] => textPiece (pending ++ a ++ '`' :: b)
  | a :: b :: c :: rest =>
    if b.contains '\n' then backtickPieces (pending ++ a ++ ['`']) (b :: c :: rest)
    else textPiece (pending ++ a) ++ codePiece b :: backtickPieces [] (c :: rest)

/-- The node list fix_backticks splices in for one matched tag: the
substituted string re-parsed as alternating text runs and code spans.
This models the lxml re-parse only for strings free of the markup
metacharacters (less-than and ampersand): on text containing them the
real parser builds further elements, possibly with attributes, which
this definition never produces.  Theorems that exercise the substitution
path therefore restrict the text with the plainText check (or the
corresponding per-string hypotheses). -/
def backtickSub (s : String) : List Node :=
  backtickPieces [] (splitAllAux '`' [] s.toList)

mutual
/-- Source fix_backticks after the smoothing step: every tag whose string
contains a backtick, except a tag whose only child is itself a tag, has
its contents replaced by the substituted and re-parsed fragment.  Such a
tag always has exactly one text child: its string is not none, and its
single child is not a tag. -/
def fixBackticksN : Node → Node
  | .elem n a [Node.text s] =>
    if containsChar '`' s then Node.elem n a (backtickSub s)
    else Node.elem n a [Node.text s]
  | .elem n a cs => Node.elem n a (fixBackticksL cs)
  | x => x
def fixBackticksL : List Node → List Node
  | [] => []
  | x :: xs => fixBackticksN x :: fixBackticksL xs
end

/-- Source fix_backticks: smooth so split backtick pairs coalesce, then
substitute. -/
def fixBackticks (doc : List Node) : List Node :=
  fixBackticksL (smoothL doc)

/-! ### The pipeline -/

/-- Source process_google_doc_html: all cleanup passes in order, aborting
on the first uncaught exception. -/
def processGoogleDocHtml (doc : List Node) : Except String (List Node) := do
  let d1 := removeSingleCellTablesL doc
  let d2 := processBuildingBlockCodeL d1
  let d3 := markCodeBlocks d2
  let d4 ← replaceStyleSpans d3
  let d5 ← fixGoogleLinksL d4
  let d6 := removeIds d5
  let d7 := removeClasses d6
  let d8 := removeStyles d7
  let d9 ← identifyCodeBlocksL d8
  let d10 := fixBackticks d9
  Except.ok (removeEmptyParas d10)

/-! ### Predicates used to state the claims -/

def nodeIsElem : Node → Bool
  | .elem _ _ _ => true
  | _ => false

mutual
/-- Every node of the forest, at any depth, satisfies the local check P. -/
def allNodesL (P : Node → Bool) : List Node → Bool
  | [] => true
  | x :: xs => allNodesN P x && allNodesL P xs
def allNodesN (P : Node → Bool) : Node → Bool
  | .elem n a cs => P (.elem n a cs) && allNodesL P cs
  | x => P x
end

/-- Local check: the node does not carry the given attribute. -/
def noAttrPred (k : String) : Node → Bool
  | .elem _ a _ => (lookupAttr k a).isNone
  | _ => true

/-- No element of the tree carries the given attribute. -/
def noAttrL (k : String) (l : List Node) : Bool := allNodesL (noAttrPred k) l

/-- Local check: the node is not a span element. -/
def spanOk : Node → Bool
  | .elem n _ _ => !(n = "span")
  | _ => true

/-- No span element remains anywhere. -/
def spanFreeL (l : List Node) : Bool := allNodesL spanOk l

/-- Local check: a class attribute is allowed only as the python language
marker on a pre element. -/
def classOk : Node → Bool
  | .elem n a _ =>
    (lookupAttr "class" a).isNone ||
      (n = "pre" && lookupAttr "class" a == some "python")
  | _ => true

/-- Every class attribute in the tree is the python language marker on a
pre element. -/
def pythonClassOnlyL (l : List Node) : Bool := allNodesL classOk l

/-- Local check: the node is not a p element. -/
def notP : Node → Bool
  | .elem n _ _ => !(n = "p")
  | _ => true

/-- No p element anywhere in the forest. -/
def pFreeL (l : List Node) : Bool := allNodesL notP l

mutual
/-- No p element with an empty child list remains. -/
def noEmptyParaL : List Node → Bool
  | [] => true
  | x :: xs => noEmptyParaN x && noEmptyParaL xs
def noEmptyParaN : Node → Bool
  | .elem n _ cs => if n = "p" && cs.isEmpty then false else noEmptyParaL cs
  | _ => true
end

mutual
/-- No p element nested inside another p element (true of any tree built
by a conformant HTML parser). -/
def noNestedPL : List Node → Bool
  | [] => true
  | x :: xs => noNestedPN x && noNestedPL xs
def noNestedPN : Node → Bool
  | .elem n _ cs => if n = "p" then pFreeL cs else noNestedPL cs
  | _ => true
end

mutual
/-- The building-block pass finds nothing to do in this forest: no
element has a start-sentinel span among its direct children.  A sentinel
span sitting directly in the list is allowed; only its parent triggers. -/
def blockFreeL : List Node → Bool
  | [] => true
  | x :: xs => blockFreeInsideN x && blockFreeL xs
def blockFreeInsideN : Node → Bool
  | .elem _ _ cs => !(cs.any isStartSpan) && blockFreeL cs
  | _ => true
end

/-- Local check: the text carries no start-sentinel character U+EC03
(documents without code building blocks satisfy this everywhere). -/
def noStartSentinelText : Node → Bool
  | .text s => !(containsChar (Char.ofNat 60419) s)
  | _ => true

/-- Local check: the text holds neither of the markup metacharacters,
the less-than sign and the ampersand.  On such text the lxml fragment
re-parse inside fix_backticks returns the substituted string literally
(no new elements or entity decodings are introduced), which is the domain
on which backtickSub models that step; the other passes only copy,
concatenate and whitespace-join document text, so the check is stable
across the pipeline. -/
def plainText : Node → Bool
  | .text s => !(containsChar '<' s) && !(containsChar '&' s)
  | _ => true

/-- Local check: the stylesheet rules declare no code font, so the code
class set of the document is empty. -/
def noCodeFontRule : Node → Bool
  | .style rules => !(rules.any ruleIsCode)
  | _ => true

/-- A local check that does not depend on the children of an element
(it looks only at the tag name, the attributes, or non-element nodes). -/
def ChildIndep (P : Node → Bool) : Prop :=
  ∀ (n : String) (a : List (String × String)) (cs cs2 : List Node),
    P (.elem n a cs) = P (.elem n a cs2)

mutual
/-- The name skeleton of a tree: attributes, text payloads and style
payloads erased.  A pass that only edits attributes preserves it. -/
def shapeN : Node → Node
  | .elem n _ cs => .elem n [] (shapeL cs)
  | .text _ => .text ""
  | .style _ => .style []
def shapeL : List Node → List Node
  | [] => []
  | x :: xs => shapeN x :: shapeL xs
end

/-- The forest holds, at its top level, a pre element whose single child is
the text s (the attribute list of the pre is unconstrained). -/
def PreAt (s : String) (l : List Node) : Prop :=
  ∃ A pa B, l = A ++ Node.elem "pre" pa [Node.text s] :: B

/-! ## Helper lemmas -/

theorem triple_filter_idem {α : Type} (p q r : α → Bool) (l : List α) :
    (((((l.filter p).filter q).filter r).filter p).filter q).filter r =
      ((l.filter p).filter q).filter r := by
  have hp : ∀ x ∈ ((l.filter p).filter q).filter r, p x = true := by
    intro x hx
    rw [List.mem_filter, List.mem_filter, List.mem_filter] at hx
    exact hx.1.1.2
  have hq : ∀ x ∈ ((l.filter p).filter q).filter r, q x = true := by
    intro x hx
    rw [List.mem_filter, List.mem_filter] at hx
    exact hx.1.2
  have hr : ∀ x ∈ ((l.filter p).filter q).filter r, r x = true := by
    intro x hx
    rw [List.mem_filter] at hx
    exact hx.2
  rw [List.filter_eq_self.mpr hp, List.filter_eq_self.mpr hq,
    List.filter_eq_self.mpr hr]

mutual
theorem stripAttrN_idem : (x : Node) →
    removeAttrN "style" (removeAttrN "class" (removeAttrN "id"
      (removeAttrN "style" (removeAttrN "class" (removeAttrN "id" x))))) =
    removeAttrN "style" (removeAttrN "class" (removeAttrN "id" x))
  | .elem n a cs => by
    simp only [removeAttrN]
    rw [triple_filter_idem, stripAttrL_idem cs]
  | .text s => by simp [removeAttrN]
  | .style r => by simp [removeAttrN]
theorem stripAttrL_idem : (l : List Node) →
    removeAttrL "style" (removeAttrL "class" (removeAttrL "id"
      (removeAttrL "style" (removeAttrL "class" (removeAttrL "id" l))))) =
    removeAttrL "style" (removeAttrL "class" (removeAttrL "id" l))
  | [] => by simp [removeAttrL]
  | x :: xs => by simp [removeAttrL, stripAttrN_idem x, stripAttrL_idem xs]
end

/-! ## Claim theorems and witnesses -/

/-- C10: a stylesheet rule declaring font-weight with the non-integer
value bold makes extract_span_styles raise ValueError when converting it
with int, so replace_style_spans and with it the whole
process_google_doc_html pipeline abort instead of skipping the rule. -/
theorem c10_nonint_font_weight_aborts :
    extractSpanStyles
        [Node.style [⟨".c1", [("font-weight", "bold")]⟩],
         Node.elem "p" [] [Node.text "x"]] =
      Except.error "ValueError: invalid literal for int" ∧
    replaceStyleSpans
        [Node.style [⟨".c1", [("font-weight", "bold")]⟩],
         Node.elem "p" [] [Node.text "x"]] =
      Except.error "ValueError: invalid literal for int" ∧
    processGoogleDocHtml
        [Node.style [⟨".c1", [("font-weight", "bold")]⟩],
         Node.elem "p" [] [Node.text "x"]] =
      Except.error "ValueError: invalid literal for int" :=
  ⟨rfl, rfl, rfl⟩

/-- C6 counterexample: for a single-cell table whose row sits inside a
tbody, the pass does not replace the table with the cells children: the
tbody wrapper survives, so the output is not the cells child sequence. -/
theorem c6_single_cell_counterexample :
    removeSingleCellTablesL
        [Node.elem "table" []
          [Node.elem "tbody" []
            [Node.elem "tr" [] [Node.elem "td" [] [Node.text "X"]]]]] =
      [Node.elem "tbody" [] [Node.text "X"]] ∧
    removeSingleCellTablesL
        [Node.elem "table" []
          [Node.elem "tbody" []
            [Node.elem "tr" [] [Node.elem "td" [] [Node.text "X"]]]]] ≠
      [Node.text "X"] :=
  ⟨rfl, by decide⟩

/-- C6 amended: a qualifying table is rewritten by unwrapping its first
cell, its first row and the table itself, so only when the single row is
the tables direct child and the single cell is the rows direct child is
the table replaced exactly by the cells children at its position; a
non-qualifying table stays a table in place (its descendants still being
processed), and the pass is total. -/
theorem c6_single_cell_tables (ta ra da : List (String × String))
    (cs rest : List Node)
    (h1 : countTagL "tr" cs = 0) (h2 : countTagL "td" cs = 0) :
    removeSingleCellTablesL
        (Node.elem "table" ta [Node.elem "tr" ra [Node.elem "td" da cs]] :: rest) =
      cs ++ removeSingleCellTablesL rest ∧
    ∀ (ta2 : List (String × String)) (cs2 rest2 : List Node),
      isSingleCell cs2 = false →
      removeSingleCellTablesL (Node.elem "table" ta2 cs2 :: rest2) =
        Node.elem "table" ta2 (removeSingleCellTablesL cs2) ::
          removeSingleCellTablesL rest2 := by
  constructor
  · simp [removeSingleCellTablesL, removeSingleCellTablesN, isSingleCell,
      countTagL, countTagN, findTagL, findTagN, h1, h2, singleCellSplice,
      unwrapFirstTrL, unwrapFirstTrN, unwrapFirstTdL, unwrapFirstTdN]
  · intro ta2 cs2 rest2 hns
    simp [removeSingleCellTablesL, removeSingleCellTablesN, hns]

/-- C6 amended, witness: a direct single-cell table flattens to the cell
content, and a rowless table is untouched. -/
theorem c6_single_cell_tables_witness :
    countTagL "tr" [Node.text "X"] = 0 ∧ countTagL "td" [Node.text "X"] = 0 ∧
    removeSingleCellTablesL
        [Node.elem "table" [] [Node.elem "tr" [] [Node.elem "td" [] [Node.text "X"]]]] =
      [Node.text "X"] ∧
    isSingleCell [Node.elem "b" [] []] = false ∧
    removeSingleCellTablesL [Node.elem "table" [] [Node.elem "b" [] []]] =
      [Node.elem "table" [] [Node.elem "b" [] []]] := by
  refine ⟨rfl, rfl, ?_, by decide, ?_⟩
  · have h := (c6_single_cell_tables [] [] [] [Node.text "X"] [] rfl rfl).1
    simpa using h
  · have h := (c6_single_cell_tables [] [] [] [Node.text "X"] [] rfl rfl).2
      [] [Node.elem "b" [] []] [] (by decide)
    simpa [removeSingleCellTablesL, removeSingleCellTablesN] using h

/-- C9: remove_empty_paras drops a p only when its child list is empty
once spans are unwrapped: a p whose only child is a (whitespace-only)
text node is kept unchanged, a p with no children is dropped, and a p
whose only child is an empty span is dropped. -/
theorem c9_empty_para_cleanup (a sa : List (String × String)) (s : String) :
    removeEmptyParas [Node.elem "p" a [Node.text s]] =
      [Node.elem "p" a [Node.text s]] ∧
    removeEmptyParas [Node.elem "p" a []] = [] ∧
    removeEmptyParas [Node.elem "p" a [Node.elem "span" sa []]] = [] :=
  ⟨rfl, rfl, rfl⟩

/-- C8: running the attribute stripper (remove_ids, then remove_classes,
then remove_styles) twice yields exactly the same tree as running it
once. -/
theorem c8_attribute_strip_idempotent (doc : List Node) :
    stripAttributes (stripAttributes doc) = stripAttributes doc := by
  simpa [stripAttributes, removeIds, removeClasses, removeStyles] using
    stripAttrL_idem doc

/-- C3: an anchor whose href the outbound-redirect pattern matches is
rewritten to the first q value of the URLs query when one exists, and the
pass aborts with the KeyError when the URL has no usable q parameter,
rather than leaving the href unrewritten. -/
theorem c3_google_link_rewrite (a : List (String × String)) (cs : List Node)
    (h v : String) (hhref : lookupAttr "href" a = some h)
    (hmatch : matchesGoogleRedirect h = true) :
    (firstQValue (urlQuery h) = some v →
      fixGoogleLinksN (Node.elem "a" a cs) =
        (fixGoogleLinksL cs).map (Node.elem "a" (setAttrVal "href" v a))) ∧
    (firstQValue (urlQuery h) = none →
      fixGoogleLinksN (Node.elem "a" a cs) = Except.error "KeyError: q") := by
  constructor
  · intro hq
    cases hc : fixGoogleLinksL cs <;>
      simp [fixGoogleLinksN, hhref, hmatch, hq, hc, Except.map, Bind.bind,
        Except.bind]
  · intro hq
    simp [fixGoogleLinksN, hhref, hmatch, hq, Bind.bind, Except.bind]

/-- C3 witness: the specs example URL is rewritten to example.com, and a
redirect URL without a q parameter is a hard error. -/
theorem c3_google_link_rewrite_witness :
    lookupAttr "href" [("href", "https://www.google.com/url?q=https://example.com&sa=x")] =
        some "https://www.google.com/url?q=https://example.com&sa=x" ∧
    matchesGoogleRedirect "https://www.google.com/url?q=https://example.com&sa=x" = true ∧
    firstQValue (urlQuery "https://www.google.com/url?q=https://example.com&sa=x") =
        some "https://example.com" ∧
    fixGoogleLinksN (Node.elem "a"
        [("href", "https://www.google.com/url?q=https://example.com&sa=x")] []) =
      Except.ok (Node.elem "a" [("href", "https://example.com")] []) ∧
    fixGoogleLinksN (Node.elem "a" [("href", "https://www.google.com/url?sa=x")] []) =
      Except.error "KeyError: q" := by
  refine ⟨rfl, by decide, by decide, ?_, ?_⟩
  · have h := (c3_google_link_rewrite
      [("href", "https://www.google.com/url?q=https://example.com&sa=x")] []
      "https://www.google.com/url?q=https://example.com&sa=x" "https://example.com"
      rfl (by decide)).1 (by decide)
    rw [h]
    rfl
  · exact (c3_google_link_rewrite
      [("href", "https://www.google.com/url?sa=x")] []
      "https://www.google.com/url?sa=x" ""
      rfl (by decide)).2 (by decide)

/-- C4: when the span sweep reaches a code-class span that is the sole
child of a p, div or td container: with a pre as the directly preceding
(already processed) sibling the lines text is appended to that pre
joined with a carriage-return-newline and the container dropped;
otherwise the container itself becomes a pre holding the lines text with
the inner span discarded.  In particular two consecutive such paragraphs
collapse into one pre whose text is the two lines joined by the
carriage-return-newline separator. -/
theorem c4_code_block_consolidation (t1 t2 : String) :
    markCodeBlocks
        [Node.style [⟨".c0", [("font-family", "Courier New")]⟩],
         Node.elem "p" [] [Node.elem "span" [("class", "c0")] [Node.text t1]],
         Node.elem "p" [] [Node.elem "span" [("class", "c0")] [Node.text t2]]] =
      [Node.style [⟨".c0", [("font-family", "Courier New")]⟩],
       Node.elem "pre" [] [Node.text (t1 ++ ("\r\n" ++ t2))]] ∧
    (∀ (cls : List String) (pa : List (String × String)) (pk acc2 rest : List Node)
       (x : Node), qualifiesBlock cls x = true →
      markCodeSpans cls (Node.elem "pre" pa pk :: acc2) (x :: rest) =
        markCodeSpans cls
          (Node.elem "pre" pa
            (pk ++ [Node.text "\r\n", Node.text ((Node.string? x).getD "")]) :: acc2)
          rest) ∧
    (∀ (cls : List String) (rest : List Node) (nx : String)
       (ax : List (String × String)) (s : Node),
      qualifiesBlock cls (Node.elem nx ax [s]) = true →
      markCodeSpans cls [] (Node.elem nx ax [s] :: rest) =
        markCodeSpans cls
          [Node.elem "pre" ax
            [Node.text ((Node.string? (Node.elem nx ax [s])).getD "")]] rest) := by
  refine ⟨rfl, ?_, ?_⟩
  · intro cls pa pk acc2 rest x hq
    cases x with
    | elem nx ax csx => simp [markCodeSpans, hq]
    | text s => simp [qualifiesBlock] at hq
    | style r => simp [qualifiesBlock] at hq
  · intro cls rest nx ax s hq
    simp [markCodeSpans, hq]

/-- C4 witness: the merge and convert branches at the reference example,
two code-class paragraphs with the texts a=1 and b=2. -/
theorem c4_code_block_consolidation_witness :
    markCodeBlocks
        [Node.style [⟨".c0", [("font-family", "Courier New")]⟩],
         Node.elem "p" [] [Node.elem "span" [("class", "c0")] [Node.text "a=1"]],
         Node.elem "p" [] [Node.elem "span" [("class", "c0")] [Node.text "b=2"]]] =
      [Node.style [⟨".c0", [("font-family", "Courier New")]⟩],
       Node.elem "pre" [] [Node.text "a=1\r\nb=2"]] ∧
    qualifiesBlock ["c0"]
        (Node.elem "p" [] [Node.elem "span" [("class", "c0")] [Node.text "b=2"]]) = true ∧
    markCodeSpans ["c0"] [Node.elem "pre" [] [Node.text "a=1"]]
        [Node.elem "p" [] [Node.elem "span" [("class", "c0")] [Node.text "b=2"]]] =
      [Node.elem "pre" [] [Node.text "a=1", Node.text "\r\n", Node.text "b=2"]] := by
  refine ⟨(c4_code_block_consolidation "a=1" "b=2").1, by decide, ?_⟩
  have h := (c4_code_block_consolidation "a=1" "b=2").2.1 ["c0"] [] [Node.text "a=1"]
    [] [] (Node.elem "p" [] [Node.elem "span" [("class", "c0")] [Node.text "b=2"]])
    (by decide)
  rw [h]
  rfl

theorem toList_append (s t : String) : (s ++ t).toList = s.toList ++ t.toList := by
  simp [String.toList, String.data_append]

theorem splitAllAux_no_sep (sep : Char) (acc l : List Char)
    (h : ∀ c ∈ l, ¬(c = sep)) :
    splitAllAux sep acc l = [acc.reverse ++ l] := by
  induction l generalizing acc with
  | nil => simp [splitAllAux]
  | cons c cs ih =>
    have hc : ¬(c = sep) := h c (by simp)
    simp [splitAllAux, hc, ih (c :: acc) (fun d hd => h d (by simp [hd]))]

theorem splitAllAux_sep_split (sep : Char) (acc l r : List Char)
    (h : ∀ c ∈ l, ¬(c = sep)) :
    splitAllAux sep acc (l ++ sep :: r) =
      (acc.reverse ++ l) :: splitAllAux sep [] r := by
  induction l generalizing acc with
  | nil => simp [splitAllAux]
  | cons c cs ih =>
    have hc : ¬(c = sep) := h c (by simp)
    simp [splitAllAux, hc, ih (c :: acc) (fun d hd => h d (by simp [hd]))]

theorem backtickSub_wrapped (t : String)
    (hb : ¬('`' ∈ t.toList)) (hn : ¬('\n' ∈ t.toList)) (hne : t.toList ≠ []) :
    backtickSub ("`" ++ t ++ "`") = [Node.elem "code" [] [Node.text t]] := by
  unfold backtickSub
  have e1 : ("`" ++ t ++ "`").toList = '`' :: (t.toList ++ '`' :: []) := by
    simp [toList_append]
  rw [e1]
  have e2 : splitAllAux '`' [] ('`' :: (t.toList ++ '`' :: [])) =
      [] :: splitAllAux '`' [] (t.toList ++ '`' :: []) := by
    simp [splitAllAux]
  rw [e2, splitAllAux_sep_split '`' [] t.toList [] (fun c hc hc2 => hb (hc2 ▸ hc)),
    splitAllAux_no_sep '`' [] [] (by simp)]
  have hn2 : ¬('\n' ∈ t.data) := hn
  have hne2 : ¬(t.data = []) := hne
  simp [backtickPieces, textPiece, codePiece, hn2, hne2]

/-- C7: an element whose coalesced text is a backtick-wrapped run inside
an anchor, as in the reference test input of a span wrapping an anchor
wrapping backticked text, keeps the anchor with its href unchanged while
the backticked run becomes an inline code element containing the bare
text: the substitute-and-re-parse step preserves the surrounding markup.
The text is restricted to hold no markup metacharacter (no less-than
sign and no ampersand), the domain on which the re-parse of the
substituted string returns it literally. -/
theorem c7_backtick_markup_preserved (url t : String) (sa : List (String × String))
    (hb : ¬('`' ∈ t.toList)) (hn : ¬('\n' ∈ t.toList)) (hne : t.toList ≠ [])
    (hlt : ¬('<' ∈ t.toList)) (hamp : ¬('&' ∈ t.toList)) :
    fixBackticks
        [Node.elem "span" sa
          [Node.elem "a" [("href", url)] [Node.text ("`" ++ t ++ "`")]]] =
      [Node.elem "span" sa
        [Node.elem "a" [("href", url)] [Node.elem "code" [] [Node.text t]]]] := by
  have hsub := backtickSub_wrapped t hb hn hne
  have hcontains : containsChar '`' ("`" ++ t ++ "`") = true := by
    simp [containsChar, toList_append]
  simp [fixBackticks, smoothL, smoothN, mergeTexts, fixBackticksL, fixBackticksN,
    hsub, hcontains]

mutual
theorem pbbcN_id : (x : Node) → blockFreeInsideN x = true →
    processBuildingBlockCodeN x = x
  | .elem n a cs, h => by
    have hcs : blockFreeL cs = true := by
      simp [blockFreeInsideN] at h; exact h.2
    simp [processBuildingBlockCodeN, pbbcL_id cs hcs]
  | .text s, _ => rfl
  | .style r, _ => rfl
theorem pbbcL_id : (l : List Node) → blockFreeL l = true →
    processBuildingBlockCodeL l = l
  | [], _ => rfl
  | x :: xs, h => by
    have hx : blockFreeInsideN x = true := by
      simp [blockFreeL] at h; exact h.1
    have hxs : blockFreeL xs = true := by
      simp [blockFreeL] at h; exact h.2
    have hds : hasDirectStartSpan x = false := by
      cases x with
      | elem n a cs =>
        simp [blockFreeInsideN] at hx
        simp [hasDirectStartSpan]
        exact hx.1
      | text s => simp [hasDirectStartSpan]
      | style r => simp [hasDirectStartSpan]
    rw [processBuildingBlockCodeL, pbbcN_id x hx]
    simp [hds, pbbcL_id xs hxs]
end

theorem collectLines_spec (en : String) (ea : List (String × String))
    (ecs B : List Node) (hE : hasEndSpanL ecs = true) (A : List Node) :
    ∀ (linesRev keptRev : List Node),
    (∀ x ∈ A, ∀ n a cs, x = Node.elem n a cs → hasEndSpanL cs = false) →
    collectLines linesRev keptRev (A ++ Node.elem en ea ecs :: B) =
      Node.elem "pre" []
          [Node.text (blockText
            (linesRev.reverse ++ (A.filter nodeIsElem ++
              [Node.elem en ea ((removeEndSpanL ecs).getD ecs)])))] ::
        (keptRev.reverse ++ (A.filter (fun x => !(nodeIsElem x)) ++
          processBuildingBlockCodeL B)) := by
  induction A with
  | nil =>
    intro linesRev keptRev _
    simp [collectLines, hE]
  | cons y A2 ih =>
    intro linesRev keptRev hA
    cases y with
    | elem n a cs =>
      have hy : hasEndSpanL cs = false :=
        hA (Node.elem n a cs) (by simp) n a cs rfl
      have ih2 := ih (Node.elem n a cs :: linesRev) keptRev
        (fun x hx => hA x (by simp [hx]))
      have e : collectLines linesRev keptRev
          ((Node.elem n a cs :: A2) ++ Node.elem en ea ecs :: B) =
          collectLines (Node.elem n a cs :: linesRev) keptRev
            (A2 ++ Node.elem en ea ecs :: B) := by
        simp [collectLines, hy]
      rw [e, ih2]
      simp [nodeIsElem, List.filter, List.append_assoc]
    | text s =>
      have ih2 := ih linesRev (Node.text s :: keptRev)
        (fun x hx => hA x (by simp [hx]))
      have e : collectLines linesRev keptRev
          ((Node.text s :: A2) ++ Node.elem en ea ecs :: B) =
          collectLines linesRev (Node.text s :: keptRev)
            (A2 ++ Node.elem en ea ecs :: B) := by
        simp [collectLines]
      rw [e, ih2]
      simp [nodeIsElem, List.filter, List.append_assoc]
    | style r =>
      have ih2 := ih linesRev (Node.style r :: keptRev)
        (fun x hx => hA x (by simp [hx]))
      have e : collectLines linesRev keptRev
          ((Node.style r :: A2) ++ Node.elem en ea ecs :: B) =
          collectLines linesRev (Node.style r :: keptRev)
            (A2 ++ Node.elem en ea ecs :: B) := by
        simp [collectLines]
      rw [e, ih2]
      simp [nodeIsElem, List.filter, List.append_assoc]

/-- C2: for a paragraph holding a start-sentinel span among its children
(and triggering nothing deeper), process_building_block_code collects
that paragraph and every following sibling element in document order,
stopping inclusively at the first following element with an end-sentinel
span anywhere within it; the start span and that end span are removed
before the collected lines are flattened into the text of the single
replacing pre; intervening non-element siblings survive after the pre,
and the remainder of the document is processed as usual. -/
theorem c2_building_block_collection
    (pn : String) (pa : List (String × String)) (pcs : List Node)
    (en : String) (ea : List (String × String)) (ecs : List Node)
    (A B : List Node)
    (hP : blockFreeL pcs = true)
    (htrig : pcs.any isStartSpan = true)
    (hA : ∀ x ∈ A, ∀ n a cs, x = Node.elem n a cs → hasEndSpanL cs = false)
    (hE : hasEndSpanL ecs = true) :
    processBuildingBlockCodeL
        (Node.elem pn pa pcs :: (A ++ Node.elem en ea ecs :: B)) =
      Node.elem "pre" []
          [Node.text (blockText
            (Node.elem pn pa (removeFirstBy isStartSpan pcs) ::
              (A.filter nodeIsElem ++
                [Node.elem en ea ((removeEndSpanL ecs).getD ecs)])))] ::
        (A.filter (fun x => !(nodeIsElem x)) ++ processBuildingBlockCodeL B) := by
  have h1 : processBuildingBlockCodeN (Node.elem pn pa pcs) = Node.elem pn pa pcs := by
    simp [processBuildingBlockCodeN, pbbcL_id pcs hP]
  have h2 : hasDirectStartSpan (Node.elem pn pa pcs) = true := by
    simp [hasDirectStartSpan, htrig]
  rw [processBuildingBlockCodeL, h1]
  simp only [h2, if_true, removeFirstDirectStartSpan]
  rw [collectLines_spec en ea ecs B hE A
    [Node.elem pn pa (removeFirstBy isStartSpan pcs)] [] hA]
  simp

/-- C2 witness: a two-line building block with an interleaved whitespace
sibling and a following paragraph. -/
theorem c2_building_block_collection_witness :
    blockFreeL [Node.elem "span" [] [Node.text "\uEC03"], Node.text "code1"] = true ∧
    ([Node.elem "span" [] [Node.text "\uEC03"], Node.text "code1"].any isStartSpan) = true ∧
    hasEndSpanL [Node.text "code2", Node.elem "span" [] [Node.text "\uEC02"]] = true ∧
    processBuildingBlockCodeL
        [Node.elem "p" []
          [Node.elem "span" [] [Node.text "\uEC03"], Node.text "code1"],
         Node.text "\n",
         Node.elem "p" []
          [Node.text "code2", Node.elem "span" [] [Node.text "\uEC02"]],
         Node.elem "p" [] [Node.text "after"]] =
      [Node.elem "pre" [] [Node.text "code1\ncode2"],
       Node.text "\n",
       Node.elem "p" [] [Node.text "after"]] := by
  refine ⟨by decide, by decide, by decide, ?_⟩
  have hA : ∀ x ∈ [Node.text "\n"], ∀ (n : String) (a : List (String × String))
      (cs : List Node), x = Node.elem n a cs → hasEndSpanL cs = false := by
    intro x hx n a cs hcs
    simp at hx
    rw [hx] at hcs
    exact Node.noConfusion hcs
  have h := c2_building_block_collection "p" []
      [Node.elem "span" [] [Node.text "\uEC03"], Node.text "code1"]
      "p" [] [Node.text "code2", Node.elem "span" [] [Node.text "\uEC02"]]
      [Node.text "\n"] [Node.elem "p" [] [Node.text "after"]]
      (by decide) (by decide) hA (by decide)
  exact h.trans rfl

/-- C7 witness at the reference test case shape. -/
theorem c7_backtick_markup_preserved_witness :
    (¬('`' ∈ ("text" : String).toList)) ∧ (¬('\n' ∈ ("text" : String).toList)) ∧
    ("text" : String).toList ≠ [] ∧
    (¬('<' ∈ ("text" : String).toList)) ∧ (¬('&' ∈ ("text" : String).toList)) ∧
    fixBackticks
        [Node.elem "span" []
          [Node.elem "a" [("href", "URL")] [Node.text ("`" ++ "text" ++ "`")]]] =
      [Node.elem "span" []
        [Node.elem "a" [("href", "URL")] [Node.elem "code" [] [Node.text "text"]]]] :=
  ⟨by decide, by decide, by decide, by decide, by decide,
    c7_backtick_markup_preserved "URL" "text" [] (by decide) (by decide) (by decide)
      (by decide) (by decide)⟩

theorem allNodesL_append (P : Node → Bool) (a b : List Node) :
    allNodesL P (a ++ b) = (allNodesL P a && allNodesL P b) := by
  induction a with
  | nil => simp [allNodesL]
  | cons x xs ih => simp [allNodesL, ih, Bool.and_assoc]

theorem allNodesL_mem (P : Node → Bool) (l : List Node)
    (h : allNodesL P l = true) : ∀ x ∈ l, allNodesN P x = true := by
  induction l with
  | nil => intro x hx; simp at hx
  | cons y ys ih =>
    simp [allNodesL] at h
    intro x hx
    cases hx with
    | head => exact h.1
    | tail _ hx2 => exact ih h.2 x hx2

mutual
theorem unwrapFirstTdN_allNodes (P : Node → Bool) (hP : ChildIndep P) :
    (x : Node) → (out : List Node) → allNodesN P x = true →
    unwrapFirstTdN x = some out → allNodesL P out = true
  | .elem n a cs, out, h, he => by
    simp [allNodesN] at h
    rw [unwrapFirstTdN] at he
    by_cases hn : n = "td"
    · rw [if_pos hn] at he
      cases he
      exact h.2
    · rw [if_neg hn] at he
      cases hcs : unwrapFirstTdL cs with
      | none => rw [hcs] at he; cases he
      | some cs2 =>
        rw [hcs] at he
        cases he
        have h2 := unwrapFirstTdL_allNodes P hP cs cs2 h.2 hcs
        simp [allNodesL, allNodesN, h2]
        rw [hP n a cs2 cs]
        exact h.1
  | .text s, out, h, he => Option.noConfusion he
  | .style r, out, h, he => Option.noConfusion he
theorem unwrapFirstTdL_allNodes (P : Node → Bool) (hP : ChildIndep P) :
    (l : List Node) → (out : List Node) → allNodesL P l = true →
    unwrapFirstTdL l = some out → allNodesL P out = true
  | [], out, h, he => Option.noConfusion he
  | x :: xs, out, h, he => by
    simp [allNodesL] at h
    rw [unwrapFirstTdL] at he
    cases hx : unwrapFirstTdN x with
    | some xl =>
      rw [hx] at he
      cases he
      rw [allNodesL_append]
      simp [unwrapFirstTdN_allNodes P hP x xl h.1 hx, h.2]
    | none =>
      rw [hx] at he
      cases hxs : unwrapFirstTdL xs with
      | none => rw [hxs] at he; cases he
      | some xs2 =>
        rw [hxs] at he
        cases he
        simp [allNodesL, h.1, unwrapFirstTdL_allNodes P hP xs xs2 h.2 hxs]
end

mutual
theorem unwrapFirstTrN_allNodes (P : Node → Bool) (hP : ChildIndep P) :
    (x : Node) → (out : List Node) → allNodesN P x = true →
    unwrapFirstTrN x = some out → allNodesL P out = true
  | .elem n a cs, out, h, he => by
    simp [allNodesN] at h
    rw [unwrapFirstTrN] at he
    by_cases hn : n = "tr"
    · rw [if_pos hn] at he
      cases he
      cases hcs : unwrapFirstTdL cs with
      | none => simp [hcs, h.2]
      | some cs2 => simp [hcs, unwrapFirstTdL_allNodes P hP cs cs2 h.2 hcs]
    · rw [if_neg hn] at he
      cases hcs : unwrapFirstTrL cs with
      | none => rw [hcs] at he; cases he
      | some cs2 =>
        rw [hcs] at he
        cases he
        have h2 := unwrapFirstTrL_allNodes P hP cs cs2 h.2 hcs
        simp [allNodesL, allNodesN, h2]
        rw [hP n a cs2 cs]
        exact h.1
  | .text s, out, h, he => Option.noConfusion he
  | .style r, out, h, he => Option.noConfusion he
theorem unwrapFirstTrL_allNodes (P : Node → Bool) (hP : ChildIndep P) :
    (l : List Node) → (out : List Node) → allNodesL P l = true →
    unwrapFirstTrL l = some out → allNodesL P out = true
  | [], out, h, he => Option.noConfusion he
  | x :: xs, out, h, he => by
    simp [allNodesL] at h
    rw [unwrapFirstTrL] at he
    cases hx : unwrapFirstTrN x with
    | some xl =>
      rw [hx] at he
      cases he
      rw [allNodesL_append]
      simp [unwrapFirstTrN_allNodes P hP x xl h.1 hx, h.2]
    | none =>
      rw [hx] at he
      cases hxs : unwrapFirstTrL xs with
      | none => rw [hxs] at he; cases he
      | some xs2 =>
        rw [hxs] at he
        cases he
        simp [allNodesL, h.1, unwrapFirstTrL_allNodes P hP xs xs2 h.2 hxs]
end

mutual
theorem rsctN_allNodes (P : Node → Bool) (hP : ChildIndep P) :
    (x : Node) → allNodesN P x = true →
    allNodesL P (removeSingleCellTablesN x) = true
  | .elem n a cs, h => by
    simp [allNodesN] at h
    rw [removeSingleCellTablesN]
    by_cases hcond : (n = "table" && isSingleCell cs) = true
    · rw [if_pos hcond]
      unfold singleCellSplice
      cases hu : unwrapFirstTrL cs with
      | none => simp [allNodesL, h.2]
      | some cs2 => simpa using unwrapFirstTrL_allNodes P hP cs cs2 h.2 hu
    · rw [if_neg hcond]
      have hL := rsctL_allNodes P hP cs h.2
      simp [allNodesL, allNodesN, hL]
      rw [hP n a (removeSingleCellTablesL cs) cs]
      exact h.1
  | .text s, h => by
    have e : removeSingleCellTablesN (Node.text s) = [Node.text s] := rfl
    rw [e]
    simpa [allNodesL, allNodesN] using h
  | .style r, h => by
    have e : removeSingleCellTablesN (Node.style r) = [Node.style r] := rfl
    rw [e]
    simpa [allNodesL, allNodesN] using h
theorem rsctL_allNodes (P : Node → Bool) (hP : ChildIndep P) :
    (l : List Node) → allNodesL P l = true →
    allNodesL P (removeSingleCellTablesL l) = true
  | [], _ => rfl
  | x :: xs, h => by
    simp [allNodesL] at h
    rw [removeSingleCellTablesL, allNodesL_append]
    simp [rsctN_allNodes P hP x h.1, rsctL_allNodes P hP xs h.2]
end

theorem string_of_sentinelFree : (x : Node) →
    allNodesN noStartSentinelText x = true →
    ¬(Node.string? x = some sentinelStart)
  | .text s, h, he => by
    have hs : s = sentinelStart := by simpa [Node.string?] using he
    rw [hs] at h
    exact absurd h (by decide)
  | .elem n a [c], h, he => by
    simp [allNodesN, allNodesL] at h
    exact string_of_sentinelFree c h.2 (by simpa [Node.string?] using he)
  | .elem n a [], h, he => by simp [Node.string?] at he
  | .elem n a (c1 :: c2 :: rest), h, he => by simp [Node.string?] at he
  | .style r, h, he => by simp [Node.string?] at he

theorem isStartSpan_of_sentinelFree (x : Node)
    (h : allNodesN noStartSentinelText x = true) : isStartSpan x = false := by
  cases x with
  | elem n a cs =>
    have hs := string_of_sentinelFree (Node.elem n a cs) h
    simp [isStartSpan]
    intro _
    simpa using hs
  | text s => rfl
  | style r => rfl

mutual
theorem blockFreeInside_of_sentinelFree : (x : Node) →
    allNodesN noStartSentinelText x = true → blockFreeInsideN x = true
  | .elem n a cs, h => by
    simp [allNodesN] at h
    simp [blockFreeInsideN]
    refine ⟨?_, blockFree_of_sentinelFree cs h.2⟩
    intro c hc
    have := isStartSpan_of_sentinelFree c (allNodesL_mem _ cs h.2 c hc)
    simp [this]
  | .text s, _ => rfl
  | .style r, _ => rfl
theorem blockFree_of_sentinelFree : (l : List Node) →
    allNodesL noStartSentinelText l = true → blockFreeL l = true
  | [], _ => rfl
  | x :: xs, h => by
    simp [allNodesL] at h
    simp [blockFreeL, blockFreeInside_of_sentinelFree x h.1,
      blockFree_of_sentinelFree xs h.2]
end

mutual
theorem styleRulesN_noCode : (x : Node) →
    allNodesN noCodeFontRule x = true →
    (styleRulesN x).filter ruleIsCode = []
  | .style rules, h => by
    simp [allNodesN, noCodeFontRule] at h
    simp [styleRulesN, List.filter_eq_nil_iff]
    intro r hr
    simpa using h r hr
  | .elem n a cs, h => by
    simp [allNodesN] at h
    simpa [styleRulesN] using styleRulesL_noCode cs h.2
  | .text s, _ => rfl
theorem styleRulesL_noCode : (l : List Node) →
    allNodesL noCodeFontRule l = true →
    (styleRulesL l).filter ruleIsCode = []
  | [], _ => rfl
  | x :: xs, h => by
    simp [allNodesL] at h
    simp [styleRulesL, List.filter_append, styleRulesN_noCode x h.1,
      styleRulesL_noCode xs h.2]
end

theorem extractCodeStyles_nil (doc : List Node)
    (h : allNodesL noCodeFontRule doc = true) : extractCodeStyles doc = [] := by
  unfold extractCodeStyles
  rw [styleRulesL_noCode doc h]
  rfl

theorem isCodeSpan_nil (x : Node) : isCodeSpan [] x = false := by
  cases x <;> simp [isCodeSpan, classMatches]

theorem qualifiesBlock_nil (x : Node) : qualifiesBlock [] x = false := by
  cases x with
  | elem n a cs =>
    cases cs with
    | nil => rfl
    | cons c cs2 =>
      cases cs2 with
      | nil => simp [qualifiesBlock, isCodeSpan_nil]
      | cons d ds => rfl
  | text s => rfl
  | style r => rfl

mutual
theorem markCodeSpans_nil : (acc l : List Node) →
    markCodeSpans [] acc l = acc.reverse ++ l
  | acc, [] => by simp [markCodeSpans]
  | acc, .elem nx ax csx :: rest => by
    have h1 : markCodeSpans [] acc (.elem nx ax csx :: rest) =
        markCodeSpans [] (.elem nx ax (markCodeInto [] (.elem nx ax csx)) :: acc)
          rest := by
      cases acc with
      | nil => rw [markCodeSpans]; simp [qualifiesBlock_nil, isCodeSpan_nil]
      | cons y acc2 =>
        cases y <;> (rw [markCodeSpans]; simp [qualifiesBlock_nil, isCodeSpan_nil])
    rw [h1, markCodeInto_nil nx ax csx]
    rw [markCodeSpans_nil (.elem nx ax csx :: acc) rest]
    simp
  | acc, .text s :: rest => by
    rw [markCodeSpans]
    rw [markCodeSpans_nil (.text s :: acc) rest]
    simp
  | acc, .style r :: rest => by
    rw [markCodeSpans]
    rw [markCodeSpans_nil (.style r :: acc) rest]
    simp
theorem markCodeInto_nil : (nx : String) → (ax : List (String × String)) →
    (csx : List Node) → markCodeInto [] (.elem nx ax csx) = csx
  | nx, ax, csx => by
    rw [markCodeInto, markCodeSpans_nil [] csx]
    simp
end

/-! ## Lemmas tracking a pre element with a single text child through the
passes of the pipeline -/

theorem rsctL_append (a b : List Node) :
    removeSingleCellTablesL (a ++ b) =
      removeSingleCellTablesL a ++ removeSingleCellTablesL b := by
  induction a with
  | nil => rfl
  | cons x xs ih => simp [removeSingleCellTablesL, ih]

theorem rsct_preAt (s : String) (l : List Node) (h : PreAt s l) :
    PreAt s (removeSingleCellTablesL l) := by
  obtain ⟨A, pa, B, rfl⟩ := h
  refine ⟨removeSingleCellTablesL A, pa, removeSingleCellTablesL B, ?_⟩
  rw [rsctL_append, removeSingleCellTablesL]
  have e : removeSingleCellTablesN (Node.elem "pre" pa [Node.text s]) =
      [Node.elem "pre" pa [Node.text s]] := rfl
  rw [e]
  simp

theorem mergeTexts_middle (s : String) : (A : List Node) →
    (pa : List (String × String)) → (B : List Node) →
    ∃ A2 B2, mergeTexts (A ++ Node.elem "pre" pa [Node.text s] :: B) =
      A2 ++ Node.elem "pre" pa [Node.text s] :: B2
  | [], pa, B =>
    ⟨[], mergeTexts B, by
      rw [List.nil_append, mergeTexts]
      · rfl
      · exact fun u hu => Node.noConfusion hu⟩
  | .text t :: A1, pa, B => by
    obtain ⟨A2, B2, h⟩ := mergeTexts_middle s A1 pa B
    rw [List.cons_append, mergeTexts, h]
    cases A2 with
    | nil => exact ⟨[Node.text t], B2, rfl⟩
    | cons y A3 =>
      cases y with
      | text u => exact ⟨Node.text (t ++ u) :: A3, B2, rfl⟩
      | elem n a cs => exact ⟨Node.text t :: Node.elem n a cs :: A3, B2, rfl⟩
      | style r => exact ⟨Node.text t :: Node.style r :: A3, B2, rfl⟩
  | .elem n a cs :: A1, pa, B => by
    obtain ⟨A2, B2, h⟩ := mergeTexts_middle s A1 pa B
    rw [List.cons_append, mergeTexts, h]
    · exact ⟨Node.elem n a cs :: A2, B2, rfl⟩
    · exact fun u hu => Node.noConfusion hu
  | .style r :: A1, pa, B => by
    obtain ⟨A2, B2, h⟩ := mergeTexts_middle s A1 pa B
    rw [List.cons_append, mergeTexts, h]
    · exact ⟨Node.style r :: A2, B2, rfl⟩
    · exact fun u hu => Node.noConfusion hu

theorem smooth_preAt (s : String) (l : List Node) (h : PreAt s l) :
    PreAt s (smoothL l) := by
  obtain ⟨A, pa, B, rfl⟩ := h
  induction A with
  | nil =>
    rw [List.nil_append, smoothL]
    have e : smoothN (Node.elem "pre" pa [Node.text s]) =
        Node.elem "pre" pa [Node.text s] := rfl
    rw [e, mergeTexts]
    · exact ⟨[], pa, mergeTexts (smoothL B), rfl⟩
    · exact fun u hu => Node.noConfusion hu
  | cons x A1 ih =>
    obtain ⟨A2, pa2, B2, h2⟩ := ih
    rw [List.cons_append, smoothL, h2]
    obtain ⟨A3, B3, h3⟩ := mergeTexts_middle s (smoothN x :: A2) pa2 B2
    rw [List.cons_append] at h3
    exact ⟨A3, pa2, B3, h3⟩

theorem rclL_append (a b : List Node) :
    resolveCodeBlocksL (a ++ b) =
      resolveCodeBlocksL a ++ resolveCodeBlocksL b := by
  induction a with
  | nil => rfl
  | cons x xs ih => simp [resolveCodeBlocksL, ih]

theorem rcl_preAt (s : String) (l : List Node) (h : PreAt s l) :
    PreAt s (resolveCodeBlocksL l) := by
  obtain ⟨A, pa, B, rfl⟩ := h
  refine ⟨resolveCodeBlocksL A, pa, resolveCodeBlocksL B, ?_⟩
  rw [rclL_append, resolveCodeBlocksL]
  have e : resolveCodeBlocksN (Node.elem "pre" pa [Node.text s]) =
      Node.elem "pre" pa [Node.text s] := rfl
  rw [e]

theorem markCodeBlocks_preAt (s : String) (l : List Node)
    (hcf : allNodesL noCodeFontRule l = true) (h : PreAt s l) :
    PreAt s (markCodeBlocks l) := by
  unfold markCodeBlocks
  rw [extractCodeStyles_nil l hcf, markCodeSpans_nil [] l, List.reverse_nil,
    List.nil_append]
  exact rcl_preAt s (smoothL l) (smooth_preAt s l h)

theorem retagL_append (clss : List String) (nm : String) (a b : List Node) :
    retagSpansL clss nm (a ++ b) =
      retagSpansL clss nm a ++ retagSpansL clss nm b := by
  induction a with
  | nil => rfl
  | cons x xs ih => simp [retagSpansL, ih]

theorem retag_preAt (clss : List String) (nm : String) (s : String)
    (l : List Node) (h : PreAt s l) : PreAt s (retagSpansL clss nm l) := by
  obtain ⟨A, pa, B, rfl⟩ := h
  refine ⟨retagSpansL clss nm A, pa, retagSpansL clss nm B, ?_⟩
  rw [retagL_append, retagSpansL]
  have e : retagSpansN clss nm (Node.elem "pre" pa [Node.text s]) =
      Node.elem "pre" pa [Node.text s] := rfl
  rw [e]

theorem retag_fold_preAt (s : String) :
    (d : List (String × List String)) → (t : List Node) → PreAt s t →
    PreAt s (d.foldl (fun t p => retagSpansL p.2 p.1 t) t)
  | [], t, h => h
  | p :: d1, t, h =>
    retag_fold_preAt s d1 (retagSpansL p.2 p.1 t) (retag_preAt p.2 p.1 s t h)

theorem replaceStyleSpans_preAt (s : String) (l out : List Node)
    (hok : replaceStyleSpans l = Except.ok out) (h : PreAt s l) :
    PreAt s out := by
  unfold replaceStyleSpans at hok
  cases hes : extractSpanStyles l with
  | error e => rw [hes] at hok; exact Except.noConfusion hok
  | ok d =>
    rw [hes] at hok
    have hout : out = d.foldl (fun t p => retagSpansL p.2 p.1 t) l := by
      cases hok; rfl
    rw [hout]
    exact retag_fold_preAt s d l h

theorem fglN_preText (s : String) (pa : List (String × String)) :
    fixGoogleLinksN (Node.elem "pre" pa [Node.text s]) =
      Except.ok (Node.elem "pre" pa [Node.text s]) := by
  rw [fixGoogleLinksN]
  cases h : lookupAttr "href" pa <;>
    simp [h, bind, Except.bind, fixGoogleLinksL, fixGoogleLinksN]

theorem fgl_preAt_aux (s : String) : (A : List Node) →
    (pa : List (String × String)) → (B out : List Node) →
    fixGoogleLinksL (A ++ Node.elem "pre" pa [Node.text s] :: B) =
      Except.ok out →
    PreAt s out
  | [], pa, B, out, hok => by
    rw [List.nil_append, fixGoogleLinksL, fglN_preText s pa] at hok
    replace hok : (do
        let xs2 ← fixGoogleLinksL B
        Except.ok (Node.elem "pre" pa [Node.text s] :: xs2)) =
        Except.ok out := hok
    cases hB : fixGoogleLinksL B with
    | error e => rw [hB] at hok; exact Except.noConfusion hok
    | ok bs =>
      rw [hB] at hok
      replace hok : Except.ok (Node.elem "pre" pa [Node.text s] :: bs) =
          Except.ok out := hok
      cases hok
      exact ⟨[], pa, bs, rfl⟩
  | x :: A1, pa, B, out, hok => by
    rw [List.cons_append, fixGoogleLinksL] at hok
    cases hx : fixGoogleLinksN x with
    | error e => rw [hx] at hok; exact Except.noConfusion hok
    | ok x2 =>
      rw [hx] at hok
      replace hok : (do
          let xs2 ← fixGoogleLinksL (A1 ++ Node.elem "pre" pa [Node.text s] :: B)
          Except.ok (x2 :: xs2)) = Except.ok out := hok
      cases hxs : fixGoogleLinksL (A1 ++ Node.elem "pre" pa [Node.text s] :: B) with
      | error e => rw [hxs] at hok; exact Except.noConfusion hok
      | ok r =>
        rw [hxs] at hok
        replace hok : Except.ok (x2 :: r) = Except.ok out := hok
        cases hok
        obtain ⟨A2, pa2, B2, h2⟩ := fgl_preAt_aux s A1 pa B r hxs
        exact ⟨x2 :: A2, pa2, B2, by rw [h2]; rfl⟩

theorem fgl_preAt (s : String) (l out : List Node)
    (hok : fixGoogleLinksL l = Except.ok out) (h : PreAt s l) : PreAt s out := by
  obtain ⟨A, pa, B, rfl⟩ := h
  exact fgl_preAt_aux s A pa B out hok

theorem removeAttrL_append (k : String) (a b : List Node) :
    removeAttrL k (a ++ b) = removeAttrL k a ++ removeAttrL k b := by
  induction a with
  | nil => rfl
  | cons x xs ih => simp [removeAttrL, ih]

theorem removeAttr_preAt (k s : String) (l : List Node) (h : PreAt s l) :
    PreAt s (removeAttrL k l) := by
  obtain ⟨A, pa, B, rfl⟩ := h
  refine ⟨removeAttrL k A, pa.filter (fun p => !(p.1 = k)), removeAttrL k B, ?_⟩
  rw [removeAttrL_append, removeAttrL]
  have e : removeAttrN k (Node.elem "pre" pa [Node.text s]) =
      Node.elem "pre" (pa.filter (fun p => !(p.1 = k))) [Node.text s] := rfl
  rw [e]

theorem icbN_preText (s : String) (pa : List (String × String)) :
    ∃ a2, identifyCodeBlocksN (Node.elem "pre" pa [Node.text s]) =
      Except.ok (Node.elem "pre" a2 [Node.text s]) :=
  ⟨if containsSub "import " (s ++ "") || containsSub "def " (s ++ "") then
      setAttrVal "class" "python" pa
    else pa, rfl⟩

theorem icb_preAt_aux (s : String) : (A : List Node) →
    (pa : List (String × String)) → (B out : List Node) →
    identifyCodeBlocksL (A ++ Node.elem "pre" pa [Node.text s] :: B) =
      Except.ok out →
    PreAt s out
  | [], pa, B, out, hok => by
    obtain ⟨a2, he⟩ := icbN_preText s pa
    rw [List.nil_append, identifyCodeBlocksL, he] at hok
    replace hok : (do
        let xs2 ← identifyCodeBlocksL B
        Except.ok (Node.elem "pre" a2 [Node.text s] :: xs2)) =
        Except.ok out := hok
    cases hB : identifyCodeBlocksL B with
    | error e => rw [hB] at hok; exact Except.noConfusion hok
    | ok bs =>
      rw [hB] at hok
      replace hok : Except.ok (Node.elem "pre" a2 [Node.text s] :: bs) =
          Except.ok out := hok
      cases hok
      exact ⟨[], a2, bs, rfl⟩
  | x :: A1, pa, B, out, hok => by
    rw [List.cons_append, identifyCodeBlocksL] at hok
    cases hx : identifyCodeBlocksN x with
    | error e => rw [hx] at hok; exact Except.noConfusion hok
    | ok x2 =>
      rw [hx] at hok
      replace hok : (do
          let xs2 ← identifyCodeBlocksL
            (A1 ++ Node.elem "pre" pa [Node.text s] :: B)
          Except.ok (x2 :: xs2)) = Except.ok out := hok
      cases hxs : identifyCodeBlocksL
          (A1 ++ Node.elem "pre" pa [Node.text s] :: B) with
      | error e => rw [hxs] at hok; exact Except.noConfusion hok
      | ok r =>
        rw [hxs] at hok
        replace hok : Except.ok (x2 :: r) = Except.ok out := hok
        cases hok
        obtain ⟨A2, pa2, B2, h2⟩ := icb_preAt_aux s A1 pa B r hxs
        exact ⟨x2 :: A2, pa2, B2, by rw [h2]; rfl⟩

theorem icb_preAt (s : String) (l out : List Node)
    (hok : identifyCodeBlocksL l = Except.ok out) (h : PreAt s l) :
    PreAt s out := by
  obtain ⟨A, pa, B, rfl⟩ := h
  exact icb_preAt_aux s A pa B out hok

theorem fbL_append (a b : List Node) :
    fixBackticksL (a ++ b) = fixBackticksL a ++ fixBackticksL b := by
  induction a with
  | nil => rfl
  | cons x xs ih => simp [fixBackticksL, ih]

theorem fb_preAt (s : String) (hb : containsChar '\u0060' s = false)
    (l : List Node) (h : PreAt s l) : PreAt s (fixBackticks l) := by
  unfold fixBackticks
  obtain ⟨A, pa, B, h2⟩ := smooth_preAt s l h
  rw [h2, fbL_append, fixBackticksL]
  have e : fixBackticksN (Node.elem "pre" pa [Node.text s]) =
      Node.elem "pre" pa [Node.text s] := by
    rw [fixBackticksN]
    simp [hb]
  rw [e]
  exact ⟨fixBackticksL A, pa, fixBackticksL B, rfl⟩

theorem uwsL_append (a b : List Node) :
    unwrapSpansL (a ++ b) = unwrapSpansL a ++ unwrapSpansL b := by
  induction a with
  | nil => rfl
  | cons x xs ih => simp [unwrapSpansL, ih]

theorem repsL_append (a b : List Node) :
    removeEmptyPsL (a ++ b) = removeEmptyPsL a ++ removeEmptyPsL b := by
  induction a with
  | nil => rfl
  | cons x xs ih => simp [removeEmptyPsL, ih]

theorem removeEmptyParas_preAt (s : String) (l : List Node) (h : PreAt s l) :
    PreAt s (removeEmptyParas l) := by
  obtain ⟨A, pa, B, rfl⟩ := h
  unfold removeEmptyParas
  rw [uwsL_append, unwrapSpansL]
  have e1 : unwrapSpansN (Node.elem "pre" pa [Node.text s]) =
      [Node.elem "pre" pa [Node.text s]] := rfl
  rw [e1]
  have e2 : [Node.elem "pre" pa [Node.text s]] ++ unwrapSpansL B =
      Node.elem "pre" pa [Node.text s] :: unwrapSpansL B := rfl
  rw [e2, repsL_append, removeEmptyPsL]
  have e3 : removeEmptyPsN (Node.elem "pre" pa [Node.text s]) =
      [Node.elem "pre" pa [Node.text s]] := rfl
  rw [e3]
  exact ⟨removeEmptyPsL (unwrapSpansL A), pa,
    removeEmptyPsL (unwrapSpansL B), by simp⟩

/-- C5 counterexample: a pre element whose text holds a backtick pair is
rewritten by fix_backticks, so its text content is not preserved by the
pipeline: the input pre has text content backtick-x-backtick, while the
output pre holds a code child whose text content is the bare x. -/
theorem c5_pre_text_counterexample :
    processGoogleDocHtml [Node.elem "pre" [] [Node.text "\u0060x\u0060"]] =
      Except.ok [Node.elem "pre" []
        [Node.elem "code" [] [Node.text "x"]]] ∧
    textContentList [Node.elem "pre" [] [Node.text "\u0060x\u0060"]] =
      "\u0060x\u0060" ∧
    textContentList [Node.elem "pre" []
        [Node.elem "code" [] [Node.text "x"]]] = "x" :=
  ⟨rfl, rfl, rfl⟩

/-- C5 amended: for an input tree holding, at its top level, a pre element
whose single child is the text s, the pipeline preserves that pre with the
very text s as its single child, provided no text of the tree carries the
building-block start sentinel, the stylesheet declares no code font, and s
holds no backtick character; the pre is preserved in place with its own
attributes possibly rewritten.  (Without the backtick condition
fix_backticks rewrites the text, and a sentinel or code-font style can
merge other content into the pre.) -/
theorem c5_pre_text_preserved (doc out : List Node) (s : String)
    (h1 : allNodesL noStartSentinelText doc = true)
    (h2 : allNodesL noCodeFontRule doc = true)
    (h3 : containsChar '\u0060' s = false)
    (h4 : PreAt s doc)
    (h5 : processGoogleDocHtml doc = Except.ok out) :
    PreAt s out := by
  have hs1 : allNodesL noStartSentinelText (removeSingleCellTablesL doc) = true :=
    rsctL_allNodes noStartSentinelText (fun n a cs cs2 => rfl) doc h1
  have hc1 : allNodesL noCodeFontRule (removeSingleCellTablesL doc) = true :=
    rsctL_allNodes noCodeFontRule (fun n a cs cs2 => rfl) doc h2
  have hbf : blockFreeL (removeSingleCellTablesL doc) = true :=
    blockFree_of_sentinelFree _ hs1
  have hp1 : PreAt s (removeSingleCellTablesL doc) := rsct_preAt s doc h4
  have hp3 : PreAt s (markCodeBlocks (removeSingleCellTablesL doc)) :=
    markCodeBlocks_preAt s _ hc1 hp1
  simp only [processGoogleDocHtml] at h5
  rw [pbbcL_id _ hbf] at h5
  cases hr : replaceStyleSpans (markCodeBlocks (removeSingleCellTablesL doc)) with
  | error e => rw [hr] at h5; exact Except.noConfusion h5
  | ok d4 =>
    rw [hr] at h5
    have hp4 : PreAt s d4 := replaceStyleSpans_preAt s _ d4 hr hp3
    replace h5 : (do
        let d5 ← fixGoogleLinksL d4
        let d9 ← identifyCodeBlocksL (removeStyles (removeClasses (removeIds d5)))
        Except.ok (removeEmptyParas (fixBackticks d9))) = Except.ok out := h5
    cases hg : fixGoogleLinksL d4 with
    | error e => rw [hg] at h5; exact Except.noConfusion h5
    | ok d5 =>
      rw [hg] at h5
      have hp5 : PreAt s d5 := fgl_preAt s d4 d5 hg hp4
      have hp8 : PreAt s (removeStyles (removeClasses (removeIds d5))) :=
        removeAttr_preAt "style" s _ (removeAttr_preAt "class" s _
          (removeAttr_preAt "id" s _ hp5))
      replace h5 : (do
          let d9 ← identifyCodeBlocksL (removeStyles (removeClasses (removeIds d5)))
          Except.ok (removeEmptyParas (fixBackticks d9))) = Except.ok out := h5
      cases hi : identifyCodeBlocksL (removeStyles (removeClasses (removeIds d5))) with
      | error e => rw [hi] at h5; exact Except.noConfusion h5
      | ok d9 =>
        rw [hi] at h5
        have hp9 : PreAt s d9 := icb_preAt s _ d9 hi hp8
        replace h5 : Except.ok (removeEmptyParas (fixBackticks d9)) =
            Except.ok out := h5
        cases h5
        exact removeEmptyParas_preAt s _ (fb_preAt s h3 d9 hp9)

/-- C5 amended, witness: a pre with the text of an import line, in a
document with no sentinels, no stylesheet and no backticks, survives the
pipeline with its text intact (only a class attribute is added). -/
theorem c5_pre_text_preserved_witness :
    PreAt "import os"
      [Node.elem "pre" [("class", "python")] [Node.text "import os"]] :=
  c5_pre_text_preserved
    [Node.elem "pre" [] [Node.text "import os"]]
    [Node.elem "pre" [("class", "python")] [Node.text "import os"]]
    "import os" rfl rfl rfl ⟨[], [], [], rfl⟩ rfl

/-! ## Generic preservation of per-node checks through the passes -/

theorem mergeTexts_allNodes (P : Node → Bool) (hT : ∀ s, P (.text s) = true) :
    (l : List Node) → allNodesL P l = true → allNodesL P (mergeTexts l) = true
  | [], h => h
  | .text s :: rest, h => by
    simp [allNodesL] at h
    have ih := mergeTexts_allNodes P hT rest h.2
    rw [mergeTexts]
    cases hm : mergeTexts rest with
    | nil => simp [allNodesL, allNodesN, hT]
    | cons y r2 =>
      rw [hm] at ih
      cases y with
      | text t =>
        simp [allNodesL, allNodesN, hT] at ih ⊢
        exact ih
      | elem n a cs =>
        simp [allNodesL, allNodesN, hT] at ih ⊢
        exact ih
      | style r =>
        simp [allNodesL, allNodesN, hT] at ih ⊢
        exact ih
  | .elem n a cs :: rest, h => by
    simp [allNodesL] at h
    rw [mergeTexts]
    · simp [allNodesL, h.1, mergeTexts_allNodes P hT rest h.2]
    · exact fun u hu => Node.noConfusion hu
  | .style r :: rest, h => by
    simp [allNodesL] at h
    rw [mergeTexts]
    · simp [allNodesL, h.1, mergeTexts_allNodes P hT rest h.2]
    · exact fun u hu => Node.noConfusion hu

mutual
theorem smoothL_allNodes (P : Node → Bool) (hCI : ChildIndep P)
    (hT : ∀ s, P (.text s) = true) :
    (l : List Node) → allNodesL P l = true → allNodesL P (smoothL l) = true
  | [], h => h
  | x :: xs, h => by
    simp [allNodesL] at h
    rw [smoothL]
    apply mergeTexts_allNodes P hT
    simp [allNodesL]
    exact ⟨smoothN_allNodes P hCI hT x h.1, smoothL_allNodes P hCI hT xs h.2⟩
theorem smoothN_allNodes (P : Node → Bool) (hCI : ChildIndep P)
    (hT : ∀ s, P (.text s) = true) :
    (x : Node) → allNodesN P x = true → allNodesN P (smoothN x) = true
  | .elem n a cs, h => by
    simp [allNodesN] at h
    rw [smoothN]
    simp [allNodesN]
    refine ⟨?_, smoothL_allNodes P hCI hT cs h.2⟩
    rw [hCI n a (smoothL cs) cs]
    exact h.1
  | .text s, h => h
  | .style r, h => h
end

mutual
theorem uwsN_allNodes (P : Node → Bool) (hCI : ChildIndep P) :
    (x : Node) → allNodesN P x = true → allNodesL P (unwrapSpansN x) = true
  | .elem n a cs, h => by
    simp [allNodesN] at h
    rw [unwrapSpansN]
    by_cases hn : n = "span"
    · rw [if_pos hn]
      exact uwsL_allNodes P hCI cs h.2
    · rw [if_neg hn]
      simp [allNodesL, allNodesN]
      refine ⟨?_, uwsL_allNodes P hCI cs h.2⟩
      rw [hCI n a (unwrapSpansL cs) cs]
      exact h.1
  | .text s, h => by
    have e : unwrapSpansN (Node.text s) = [Node.text s] := rfl
    rw [e]
    simpa [allNodesL, allNodesN] using h
  | .style r, h => by
    have e : unwrapSpansN (Node.style r) = [Node.style r] := rfl
    rw [e]
    simpa [allNodesL, allNodesN] using h
theorem uwsL_allNodes (P : Node → Bool) (hCI : ChildIndep P) :
    (l : List Node) → allNodesL P l = true → allNodesL P (unwrapSpansL l) = true
  | [], h => h
  | x :: xs, h => by
    simp [allNodesL] at h
    rw [unwrapSpansL, allNodesL_append]
    simp [uwsN_allNodes P hCI x h.1, uwsL_allNodes P hCI xs h.2]
end

mutual
theorem repsN_allNodes (P : Node → Bool) (hCI : ChildIndep P) :
    (x : Node) → allNodesN P x = true → allNodesL P (removeEmptyPsN x) = true
  | .elem n a cs, h => by
    simp [allNodesN] at h
    rw [removeEmptyPsN]
    by_cases hn : (n = "p" && cs.isEmpty) = true
    · rw [if_pos hn]; rfl
    · rw [if_neg hn]
      simp [allNodesL, allNodesN]
      refine ⟨?_, repsL_allNodes P hCI cs h.2⟩
      rw [hCI n a (removeEmptyPsL cs) cs]
      exact h.1
  | .text s, h => by
    have e : removeEmptyPsN (Node.text s) = [Node.text s] := rfl
    rw [e]
    simpa [allNodesL, allNodesN] using h
  | .style r, h => by
    have e : removeEmptyPsN (Node.style r) = [Node.style r] := rfl
    rw [e]
    simpa [allNodesL, allNodesN] using h
theorem repsL_allNodes (P : Node → Bool) (hCI : ChildIndep P) :
    (l : List Node) → allNodesL P l = true → allNodesL P (removeEmptyPsL l) = true
  | [], h => h
  | x :: xs, h => by
    simp [allNodesL] at h
    rw [removeEmptyPsL, allNodesL_append]
    simp [repsN_allNodes P hCI x h.1, repsL_allNodes P hCI xs h.2]
end

theorem textPiece_allNodes (P : Node → Bool) (hT : ∀ s, P (.text s) = true)
    (l : List Char) : allNodesL P (textPiece l) = true := by
  unfold textPiece
  by_cases he : l.isEmpty = true
  · rw [if_pos he]; rfl
  · rw [if_neg he]; simp [allNodesL, allNodesN, hT]

theorem codePiece_allNodes (P : Node → Bool) (hT : ∀ s, P (.text s) = true)
    (hC : ∀ cs, P (.elem "code" [] cs) = true) (l : List Char) :
    allNodesN P (codePiece l) = true := by
  unfold codePiece
  by_cases he : l.isEmpty = true
  · rw [if_pos he]; simp [allNodesN, allNodesL, hC]
  · rw [if_neg he]; simp [allNodesN, allNodesL, hC, hT]

theorem backtickPieces_allNodes (P : Node → Bool)
    (hT : ∀ s, P (.text s) = true) (hC : ∀ cs, P (.elem "code" [] cs) = true) :
    (pending : List Char) → (segs : List (List Char)) →
    allNodesL P (backtickPieces pending segs) = true
  | pending, [] => textPiece_allNodes P hT pending
  | pending, [a] => textPiece_allNodes P hT (pending ++ a)
  | pending, [a, b] => textPiece_allNodes P hT (pending ++ a ++ '\u0060' :: b)
  | pending, a :: b :: c :: rest => by
    rw [backtickPieces]
    by_cases hb : b.contains '\n' = true
    · rw [if_pos hb]
      exact backtickPieces_allNodes P hT hC (pending ++ a ++ ['\u0060'])
        (b :: c :: rest)
    · rw [if_neg hb]
      rw [allNodesL_append]
      simp [textPiece_allNodes P hT, allNodesL, codePiece_allNodes P hT hC]
      exact backtickPieces_allNodes P hT hC [] (c :: rest)

theorem backtickSub_allNodes (P : Node → Bool)
    (hT : ∀ s, P (.text s) = true) (hC : ∀ cs, P (.elem "code" [] cs) = true)
    (s : String) : allNodesL P (backtickSub s) = true :=
  backtickPieces_allNodes P hT hC [] (splitAllAux '\u0060' [] s.toList)

mutual
theorem fbN_allNodes (P : Node → Bool) (hCI : ChildIndep P)
    (hT : ∀ s, P (.text s) = true) (hC : ∀ cs, P (.elem "code" [] cs) = true) :
    (x : Node) → allNodesN P x = true → allNodesN P (fixBackticksN x) = true
  | .elem n a [Node.text s], h => by
    rw [fixBackticksN]
    by_cases hb : containsChar '\u0060' s = true
    · rw [if_pos hb]
      simp [allNodesN, allNodesL] at h
      simp [allNodesN]
      refine ⟨?_, backtickSub_allNodes P hT hC s⟩
      rw [hCI n a (backtickSub s) [Node.text s]]
      exact h.1
    · rw [if_neg hb]
      exact h
  | .elem n a [], h => by
    rw [fixBackticksN]
    · exact h
    · exact fun u hu => by simp at hu
  | .elem n a [Node.elem cn ca ck], h => by
    simp [allNodesN] at h
    rw [fixBackticksN]
    · simp [allNodesN]
      refine ⟨?_, fbL_allNodes P hCI hT hC [Node.elem cn ca ck] h.2⟩
      rw [hCI n a (fixBackticksL [Node.elem cn ca ck]) [Node.elem cn ca ck]]
      exact h.1
    · exact fun u hu => by simp at hu
  | .elem n a [Node.style r], h => by
    simp [allNodesN] at h
    rw [fixBackticksN]
    · simp [allNodesN]
      refine ⟨?_, fbL_allNodes P hCI hT hC [Node.style r] h.2⟩
      rw [hCI n a (fixBackticksL [Node.style r]) [Node.style r]]
      exact h.1
    · exact fun u hu => by simp at hu
  | .elem n a (c1 :: c2 :: cs), h => by
    simp [allNodesN] at h
    rw [fixBackticksN]
    · simp [allNodesN]
      refine ⟨?_, fbL_allNodes P hCI hT hC (c1 :: c2 :: cs) ?_⟩
      · rw [hCI n a (fixBackticksL (c1 :: c2 :: cs)) (c1 :: c2 :: cs)]
        exact h.1
      · simpa [allNodesL] using h.2
    · exact fun u hu => by simp at hu
  | .text s, h => h
  | .style r, h => h
theorem fbL_allNodes (P : Node → Bool) (hCI : ChildIndep P)
    (hT : ∀ s, P (.text s) = true) (hC : ∀ cs, P (.elem "code" [] cs) = true) :
    (l : List Node) → allNodesL P l = true → allNodesL P (fixBackticksL l) = true
  | [], h => h
  | x :: xs, h => by
    simp [allNodesL] at h
    rw [fixBackticksL]
    simp [allNodesL, fbN_allNodes P hCI hT hC x h.1, fbL_allNodes P hCI hT hC xs h.2]
end

mutual
theorem resolveN_allNodes (P : Node → Bool) (hCI : ChildIndep P)
    (hT : ∀ s, P (.text s) = true) (hPre : ∀ a cs, P (.elem "pre" a cs) = true) :
    (x : Node) → allNodesN P x = true →
    allNodesN P (resolveCodeBlocksN x) = true
  | .elem n a [Node.elem cn ca ck], h => by
    simp [allNodesN, allNodesL] at h
    rw [resolveCodeBlocksN]
    by_cases h1 : ((n = "p" || n = "div" || n = "td") && cn = "code") = true
    · rw [if_pos h1]
      simp [allNodesN, hPre]
      exact resolveBrL_allNodes P hCI hT hPre ck h.2.2
    · rw [if_neg h1]
      by_cases h2 : cn = "code"
      · rw [if_pos h2]
        simp [allNodesN, allNodesL]
        refine ⟨?_, ?_, resolveBrL_allNodes P hCI hT hPre ck h.2.2⟩
        · rw [hCI n a [Node.elem cn ca (resolveCodeBrL ck)] [Node.elem cn ca ck]]
          exact h.1
        · rw [hCI cn ca (resolveCodeBrL ck) ck]
          exact h.2.1
      · rw [if_neg h2]
        by_cases h3 : (n = "code" && cn = "br") = true
        · rw [if_pos h3]
          simp [allNodesN, allNodesL, hT]
          rw [hCI n a [Node.text (String.mk ['\n'])] [Node.elem cn ca ck]]
          exact h.1
        · rw [if_neg h3]
          simp [allNodesN, allNodesL]
          refine ⟨?_, ?_⟩
          · rw [hCI n a [resolveCodeBlocksN (Node.elem cn ca ck)]
              [Node.elem cn ca ck]]
            exact h.1
          · have := resolveN_allNodes P hCI hT hPre (Node.elem cn ca ck)
              (by simp [allNodesN, allNodesL, h.2.1, h.2.2])
            simpa [allNodesL] using this
  | .elem n a [], h => by
    rw [resolveCodeBlocksN]
    · by_cases hn : n = "code"
      · rw [if_pos hn]; exact h
      · rw [if_neg hn]; exact h
    · exact fun cn ca ck hu => by simp at hu
  | .elem n a [Node.text s], h => by
    simp [allNodesN] at h
    rw [resolveCodeBlocksN]
    · by_cases hn : n = "code"
      · rw [if_pos hn]
        simp [allNodesN]
        refine ⟨?_, resolveBrL_allNodes P hCI hT hPre [Node.text s] h.2⟩
        rw [hCI n a (resolveCodeBrL [Node.text s]) [Node.text s]]
        exact h.1
      · rw [if_neg hn]
        simp [allNodesN]
        refine ⟨?_, resolveL_allNodes P hCI hT hPre [Node.text s] h.2⟩
        rw [hCI n a (resolveCodeBlocksL [Node.text s]) [Node.text s]]
        exact h.1
    · exact fun cn ca ck hu => by simp at hu
  | .elem n a [Node.style r], h => by
    simp [allNodesN] at h
    rw [resolveCodeBlocksN]
    · by_cases hn : n = "code"
      · rw [if_pos hn]
        simp [allNodesN]
        refine ⟨?_, resolveBrL_allNodes P hCI hT hPre [Node.style r] h.2⟩
        rw [hCI n a (resolveCodeBrL [Node.style r]) [Node.style r]]
        exact h.1
      · rw [if_neg hn]
        simp [allNodesN]
        refine ⟨?_, resolveL_allNodes P hCI hT hPre [Node.style r] h.2⟩
        rw [hCI n a (resolveCodeBlocksL [Node.style r]) [Node.style r]]
        exact h.1
    · exact fun cn ca ck hu => by simp at hu
  | .elem n a (c1 :: c2 :: cs), h => by
    simp [allNodesN] at h
    rw [resolveCodeBlocksN]
    · by_cases hn : n = "code"
      · rw [if_pos hn]
        simp [allNodesN]
        refine ⟨?_, resolveBrL_allNodes P hCI hT hPre (c1 :: c2 :: cs) ?_⟩
        · rw [hCI n a (resolveCodeBrL (c1 :: c2 :: cs)) (c1 :: c2 :: cs)]
          exact h.1
        · simpa [allNodesL] using h.2
      · rw [if_neg hn]
        simp [allNodesN]
        refine ⟨?_, resolveL_allNodes P hCI hT hPre (c1 :: c2 :: cs) ?_⟩
        · rw [hCI n a (resolveCodeBlocksL (c1 :: c2 :: cs)) (c1 :: c2 :: cs)]
          exact h.1
        · simpa [allNodesL] using h.2
    · exact fun cn ca ck hu => by simp at hu
  | .text s, h => h
  | .style r, h => h
theorem resolveL_allNodes (P : Node → Bool) (hCI : ChildIndep P)
    (hT : ∀ s, P (.text s) = true) (hPre : ∀ a cs, P (.elem "pre" a cs) = true) :
    (l : List Node) → allNodesL P l = true →
    allNodesL P (resolveCodeBlocksL l) = true
  | [], h => h
  | x :: xs, h => by
    simp [allNodesL] at h
    rw [resolveCodeBlocksL]
    simp [allNodesL, resolveN_allNodes P hCI hT hPre x h.1,
      resolveL_allNodes P hCI hT hPre xs h.2]
theorem resolveBrL_allNodes (P : Node → Bool) (hCI : ChildIndep P)
    (hT : ∀ s, P (.text s) = true) (hPre : ∀ a cs, P (.elem "pre" a cs) = true) :
    (l : List Node) → allNodesL P l = true →
    allNodesL P (resolveCodeBrL l) = true
  | [], h => h
  | .elem n a cs :: xs, h => by
    simp [allNodesL] at h
    rw [resolveCodeBrL]
    by_cases hbr : n = "br"
    · rw [if_pos hbr]
      simp [allNodesL, allNodesN, hT]
      exact resolveBrL_allNodes P hCI hT hPre xs h.2
    · rw [if_neg hbr]
      simp [allNodesL, resolveN_allNodes P hCI hT hPre (Node.elem n a cs) h.1,
        resolveBrL_allNodes P hCI hT hPre xs h.2]
  | .text s :: xs, h => by
    simp [allNodesL] at h
    rw [resolveCodeBrL]
    · simp [allNodesL, resolveN_allNodes P hCI hT hPre (Node.text s) h.1,
        resolveBrL_allNodes P hCI hT hPre xs h.2]
    · exact fun n a cs hu => by simp at hu
  | .style r :: xs, h => by
    simp [allNodesL] at h
    rw [resolveCodeBrL]
    · simp [allNodesL, resolveN_allNodes P hCI hT hPre (Node.style r) h.1,
        resolveBrL_allNodes P hCI hT hPre xs h.2]
    · exact fun n a cs hu => by simp at hu
end

mutual
theorem retagN_allNodes (clss : List String) (nm : String) (P : Node → Bool)
    (hCI : ChildIndep P) (hRen : ∀ a cs, P (.elem nm a cs) = true) :
    (x : Node) → allNodesN P x = true →
    allNodesN P (retagSpansN clss nm x) = true
  | .elem n a cs, h => by
    simp [allNodesN] at h
    rw [retagSpansN]
    by_cases hc : (n = "span" && classMatches clss a) = true
    · rw [if_pos hc]
      simp [allNodesN, hRen]
      exact retagL_allNodes clss nm P hCI hRen cs h.2
    · rw [if_neg hc]
      simp [allNodesN]
      refine ⟨?_, retagL_allNodes clss nm P hCI hRen cs h.2⟩
      rw [hCI n a (retagSpansL clss nm cs) cs]
      exact h.1
  | .text s, h => h
  | .style r, h => h
theorem retagL_allNodes (clss : List String) (nm : String) (P : Node → Bool)
    (hCI : ChildIndep P) (hRen : ∀ a cs, P (.elem nm a cs) = true) :
    (l : List Node) → allNodesL P l = true →
    allNodesL P (retagSpansL clss nm l) = true
  | [], h => h
  | x :: xs, h => by
    simp [allNodesL] at h
    rw [retagSpansL]
    simp [allNodesL, retagN_allNodes clss nm P hCI hRen x h.1,
      retagL_allNodes clss nm P hCI hRen xs h.2]
end

theorem lookupAttr_filter_self (k : String) : (a : List (String × String)) →
    lookupAttr k (a.filter (fun p => !(p.1 = k))) = none
  | [] => rfl
  | (k2, v) :: rest => by
    by_cases hk : k2 = k
    · simp [List.filter, hk, lookupAttr_filter_self k rest]
    · simp [List.filter, hk, lookupAttr, lookupAttr_filter_self k rest]

theorem lookupAttr_filter_none (k : String) (f : String × String → Bool) :
    (a : List (String × String)) → lookupAttr k a = none →
    lookupAttr k (a.filter f) = none
  | [], _ => rfl
  | (k2, v) :: rest, h => by
    rw [lookupAttr] at h
    by_cases hk : k2 = k
    · rw [if_pos hk] at h; exact Option.noConfusion h
    · rw [if_neg hk] at h
      by_cases hf : f (k2, v) = true
      · simp [List.filter, hf, lookupAttr, hk, lookupAttr_filter_none k f rest h]
      · simp [List.filter, hf, lookupAttr_filter_none k f rest h]

theorem lookupAttr_append_none (k : String) :
    (a b : List (String × String)) → lookupAttr k a = none →
    lookupAttr k (a ++ b) = lookupAttr k b
  | [], b, _ => rfl
  | (k2, v) :: rest, b, h => by
    rw [lookupAttr] at h
    by_cases hk : k2 = k
    · rw [if_pos hk] at h; exact Option.noConfusion h
    · rw [if_neg hk] at h
      simp [lookupAttr, hk, lookupAttr_append_none k rest b h]

theorem lookupAttr_append_some (k : String) :
    (a b : List (String × String)) → (w : String) → lookupAttr k a = some w →
    lookupAttr k (a ++ b) = some w
  | [], b, w, h => by simp [lookupAttr] at h
  | (k3, u) :: rest, b, w, h => by
    rw [lookupAttr] at h
    by_cases h3 : k3 = k
    · rw [if_pos h3] at h
      rw [List.cons_append, lookupAttr, if_pos h3]
      exact h
    · rw [if_neg h3] at h
      rw [List.cons_append, lookupAttr, if_neg h3]
      exact lookupAttr_append_some k rest b w h

theorem lookupAttr_map_set (k v : String) :
    (a : List (String × String)) → (lookupAttr k a).isSome = true →
    lookupAttr k (a.map (fun p => if p.1 = k then (k, v) else p)) = some v
  | [], h => by simp [lookupAttr] at h
  | (k2, w) :: rest, h => by
    by_cases hk : k2 = k
    · have e : (if (k2, w).1 = k then (k, v) else (k2, w)) = (k, v) := by
        simp [hk]
      rw [List.map_cons, e, lookupAttr]
      simp
    · have e : (if (k2, w).1 = k then (k, v) else (k2, w)) = (k2, w) := by
        simp [hk]
      rw [lookupAttr, if_neg hk] at h
      rw [List.map_cons, e, lookupAttr, if_neg hk]
      exact lookupAttr_map_set k v rest h

theorem lookupAttr_setAttr_self (k v : String) (a : List (String × String)) :
    lookupAttr k (setAttrVal k v a) = some v := by
  unfold setAttrVal
  by_cases hs : (lookupAttr k a).isSome = true
  · rw [if_pos hs]
    exact lookupAttr_map_set k v a hs
  · rw [if_neg hs]
    have hn : lookupAttr k a = none := by
      cases h : lookupAttr k a with
      | none => rfl
      | some w => rw [h] at hs; simp at hs
    rw [lookupAttr_append_none k a [(k, v)] hn]
    simp [lookupAttr]

theorem lookupAttr_map_set_other (k k2 v : String) (hk : ¬(k = k2)) :
    (a : List (String × String)) →
    lookupAttr k (a.map (fun p => if p.1 = k2 then (k2, v) else p)) =
      lookupAttr k a
  | [] => rfl
  | (k3, w) :: rest => by
    by_cases h3 : k3 = k2
    · have e : (if (k3, w).1 = k2 then (k2, v) else (k3, w)) =
          (k2, v) := by simp [h3]
      have h3k : ¬(k2 = k) := fun he => hk he.symm
      have h3kb : ¬(k3 = k) := by rw [h3]; exact h3k
      rw [List.map_cons, e, lookupAttr, if_neg h3k, lookupAttr, if_neg h3kb]
      exact lookupAttr_map_set_other k k2 v hk rest
    · have e : (if (k3, w).1 = k2 then (k2, v) else (k3, w)) =
          (k3, w) := by simp [h3]
      rw [List.map_cons, e, lookupAttr, lookupAttr]
      by_cases h3b : k3 = k
      · rw [if_pos h3b, if_pos h3b]
      · rw [if_neg h3b, if_neg h3b]
        exact lookupAttr_map_set_other k k2 v hk rest

theorem lookupAttr_setAttr_other (k k2 v : String) (hk : ¬(k = k2))
    (a : List (String × String)) :
    lookupAttr k (setAttrVal k2 v a) = lookupAttr k a := by
  unfold setAttrVal
  by_cases hs : (lookupAttr k2 a).isSome = true
  · rw [if_pos hs]
    exact lookupAttr_map_set_other k k2 v hk a
  · rw [if_neg hs]
    cases h : lookupAttr k a with
    | some w => rw [lookupAttr_append_some k a [(k2, v)] w h]
    | none =>
      rw [lookupAttr_append_none k a [(k2, v)] h]
      have h2k : ¬(k2 = k) := fun he => hk he.symm
      simp [lookupAttr, h2k]

mutual
theorem allNodesN_mono (P Q : Node → Bool) (hPQ : ∀ x, P x = true → Q x = true) :
    (x : Node) → allNodesN P x = true → allNodesN Q x = true
  | .elem n a cs, h => by
    simp [allNodesN] at h ⊢
    exact ⟨hPQ _ h.1, allNodesL_mono P Q hPQ cs h.2⟩
  | .text s, h => hPQ _ h
  | .style r, h => hPQ _ h
theorem allNodesL_mono (P Q : Node → Bool) (hPQ : ∀ x, P x = true → Q x = true) :
    (l : List Node) → allNodesL P l = true → allNodesL Q l = true
  | [], h => h
  | x :: xs, h => by
    simp [allNodesL] at h ⊢
    exact ⟨allNodesN_mono P Q hPQ x h.1, allNodesL_mono P Q hPQ xs h.2⟩
end

mutual
theorem removeAttrN_establishes (k : String) : (x : Node) →
    allNodesN (noAttrPred k) (removeAttrN k x) = true
  | .elem n a cs => by
    rw [removeAttrN]
    simp [allNodesN, noAttrPred, lookupAttr_filter_self k a]
    exact removeAttrL_establishes k cs
  | .text s => rfl
  | .style r => rfl
theorem removeAttrL_establishes (k : String) : (l : List Node) →
    allNodesL (noAttrPred k) (removeAttrL k l) = true
  | [] => rfl
  | x :: xs => by
    rw [removeAttrL]
    simp [allNodesL, removeAttrN_establishes k x, removeAttrL_establishes k xs]
end

mutual
theorem removeAttrN_keeps_noAttr (k k2 : String) : (x : Node) →
    allNodesN (noAttrPred k) x = true →
    allNodesN (noAttrPred k) (removeAttrN k2 x) = true
  | .elem n a cs, h => by
    simp [allNodesN, noAttrPred] at h
    rw [removeAttrN]
    simp [allNodesN, noAttrPred]
    exact ⟨lookupAttr_filter_none k _ a h.1,
      removeAttrL_keeps_noAttr k k2 cs h.2⟩
  | .text s, h => h
  | .style r, h => h
theorem removeAttrL_keeps_noAttr (k k2 : String) : (l : List Node) →
    allNodesL (noAttrPred k) l = true →
    allNodesL (noAttrPred k) (removeAttrL k2 l) = true
  | [], h => h
  | x :: xs, h => by
    simp [allNodesL] at h
    rw [removeAttrL]
    simp [allNodesL, removeAttrN_keeps_noAttr k k2 x h.1,
      removeAttrL_keeps_noAttr k k2 xs h.2]
end

mutual
theorem icbN_keeps_noAttr (k : String) (hk : ¬(k = "class")) :
    (x y : Node) → identifyCodeBlocksN x = Except.ok y →
    allNodesN (noAttrPred k) x = true → allNodesN (noAttrPred k) y = true
  | .elem n a cs, y, hok, h => by
    simp [allNodesN, noAttrPred] at h
    rw [identifyCodeBlocksN] at hok
    by_cases hn : n = "pre"
    · rw [if_pos hn] at hok
      cases hj : joinTextChildren cs with
      | error e => rw [hj] at hok; exact Except.noConfusion hok
      | ok code =>
        rw [hj] at hok
        replace hok : Except.ok (Node.elem n
            (if containsSub "import " code || containsSub "def " code then
              setAttrVal "class" "python" a
            else a) cs) = Except.ok y := hok
        cases hok
        simp [allNodesN, noAttrPred]
        refine ⟨?_, h.2⟩
        by_cases hc : containsSub "import " code = true ∨
            containsSub "def " code = true
        · rw [if_pos hc, lookupAttr_setAttr_other k "class" "python" hk a]
          exact h.1
        · rw [if_neg hc]
          exact h.1
    · rw [if_neg hn] at hok
      replace hok : (do
          let cs2 ← identifyCodeBlocksL cs
          Except.ok (Node.elem n a cs2)) = Except.ok y := hok
      cases hcs : identifyCodeBlocksL cs with
      | error e => rw [hcs] at hok; exact Except.noConfusion hok
      | ok cs2 =>
        rw [hcs] at hok
        replace hok : Except.ok (Node.elem n a cs2) = Except.ok y := hok
        cases hok
        simp [allNodesN, noAttrPred]
        exact ⟨h.1, icbL_keeps_noAttr k hk cs cs2 hcs h.2⟩
  | .text s, y, hok, h => by cases hok; exact h
  | .style r, y, hok, h => by cases hok; exact h
theorem icbL_keeps_noAttr (k : String) (hk : ¬(k = "class")) :
    (l r : List Node) → identifyCodeBlocksL l = Except.ok r →
    allNodesL (noAttrPred k) l = true → allNodesL (noAttrPred k) r = true
  | [], r, hok, h => by cases hok; exact h
  | x :: xs, r, hok, h => by
    simp [allNodesL] at h
    rw [identifyCodeBlocksL] at hok
    cases hx : identifyCodeBlocksN x with
    | error e => rw [hx] at hok; exact Except.noConfusion hok
    | ok x2 =>
      rw [hx] at hok
      replace hok : (do
          let xs2 ← identifyCodeBlocksL xs
          Except.ok (x2 :: xs2)) = Except.ok r := hok
      cases hxs : identifyCodeBlocksL xs with
      | error e => rw [hxs] at hok; exact Except.noConfusion hok
      | ok r2 =>
        rw [hxs] at hok
        replace hok : Except.ok (x2 :: r2) = Except.ok r := hok
        cases hok
        simp [allNodesL, icbN_keeps_noAttr k hk x x2 hx h.1,
          icbL_keeps_noAttr k hk xs r2 hxs h.2]
end

theorem noAttrPred_class_classOk (x : Node)
    (h : noAttrPred "class" x = true) : classOk x = true := by
  cases x with
  | elem n a cs =>
    simp [noAttrPred] at h
    simp [classOk, h]
  | text s => rfl
  | style r => rfl

mutual
theorem icbN_classOk : (x y : Node) → identifyCodeBlocksN x = Except.ok y →
    allNodesN (noAttrPred "class") x = true → allNodesN classOk y = true
  | .elem n a cs, y, hok, h => by
    simp [allNodesN, noAttrPred] at h
    rw [identifyCodeBlocksN] at hok
    by_cases hn : n = "pre"
    · rw [if_pos hn] at hok
      cases hj : joinTextChildren cs with
      | error e => rw [hj] at hok; exact Except.noConfusion hok
      | ok code =>
        rw [hj] at hok
        replace hok : Except.ok (Node.elem n
            (if containsSub "import " code || containsSub "def " code then
              setAttrVal "class" "python" a
            else a) cs) = Except.ok y := hok
        cases hok
        simp [allNodesN]
        constructor
        · by_cases hc : containsSub "import " code = true ∨
              containsSub "def " code = true
          · rw [if_pos hc]
            simp [classOk, lookupAttr_setAttr_self "class" "python" a, hn]
          · rw [if_neg hc]
            simp [classOk, h.1]
        · exact allNodesL_mono (noAttrPred "class") classOk
            noAttrPred_class_classOk cs h.2
    · rw [if_neg hn] at hok
      replace hok : (do
          let cs2 ← identifyCodeBlocksL cs
          Except.ok (Node.elem n a cs2)) = Except.ok y := hok
      cases hcs : identifyCodeBlocksL cs with
      | error e => rw [hcs] at hok; exact Except.noConfusion hok
      | ok cs2 =>
        rw [hcs] at hok
        replace hok : Except.ok (Node.elem n a cs2) = Except.ok y := hok
        cases hok
        simp [allNodesN, classOk, h.1]
        exact icbL_classOk cs cs2 hcs h.2
  | .text s, y, hok, h => by cases hok; exact h
  | .style r, y, hok, h => by cases hok; exact h
theorem icbL_classOk : (l r : List Node) →
    identifyCodeBlocksL l = Except.ok r →
    allNodesL (noAttrPred "class") l = true → allNodesL classOk r = true
  | [], r, hok, h => by cases hok; exact h
  | x :: xs, r, hok, h => by
    simp [allNodesL] at h
    rw [identifyCodeBlocksL] at hok
    cases hx : identifyCodeBlocksN x with
    | error e => rw [hx] at hok; exact Except.noConfusion hok
    | ok x2 =>
      rw [hx] at hok
      replace hok : (do
          let xs2 ← identifyCodeBlocksL xs
          Except.ok (x2 :: xs2)) = Except.ok r := hok
      cases hxs : identifyCodeBlocksL xs with
      | error e => rw [hxs] at hok; exact Except.noConfusion hok
      | ok r2 =>
        rw [hxs] at hok
        replace hok : Except.ok (x2 :: r2) = Except.ok r := hok
        cases hok
        simp [allNodesL, icbN_classOk x x2 hx h.1, icbL_classOk xs r2 hxs h.2]
end

mutual
theorem uwsN_spanFree : (x : Node) →
    allNodesL spanOk (unwrapSpansN x) = true
  | .elem n a cs => by
    rw [unwrapSpansN]
    by_cases hn : n = "span"
    · rw [if_pos hn]
      exact uwsL_spanFree cs
    · rw [if_neg hn]
      simp [allNodesL, allNodesN, spanOk, hn]
      exact uwsL_spanFree cs
  | .text s => rfl
  | .style r => rfl
theorem uwsL_spanFree : (l : List Node) →
    allNodesL spanOk (unwrapSpansL l) = true
  | [] => rfl
  | x :: xs => by
    rw [unwrapSpansL, allNodesL_append]
    simp [uwsN_spanFree x, uwsL_spanFree xs]
end

mutual
theorem removeAttrN_shape (k : String) : (x : Node) →
    shapeN (removeAttrN k x) = shapeN x
  | .elem n a cs => by
    rw [removeAttrN]
    simp [shapeN, removeAttrL_shape k cs]
  | .text s => rfl
  | .style r => rfl
theorem removeAttrL_shape (k : String) : (l : List Node) →
    shapeL (removeAttrL k l) = shapeL l
  | [] => rfl
  | x :: xs => by
    rw [removeAttrL]
    simp [shapeL, removeAttrN_shape k x, removeAttrL_shape k xs]
end

mutual
theorem fglN_shape : (x y : Node) → fixGoogleLinksN x = Except.ok y →
    shapeN y = shapeN x
  | .elem n a cs, y, hok => by
    rw [fixGoogleLinksN] at hok
    cases hl : lookupAttr "href" a with
    | none =>
      rw [hl] at hok
      replace hok : (do
          let cs2 ← fixGoogleLinksL cs
          Except.ok (Node.elem n a cs2)) = Except.ok y := hok
      cases hcs : fixGoogleLinksL cs with
      | error e => rw [hcs] at hok; exact Except.noConfusion hok
      | ok cs2 =>
        rw [hcs] at hok
        replace hok : Except.ok (Node.elem n a cs2) = Except.ok y := hok
        cases hok
        simp [shapeN, fglL_shape cs cs2 hcs]
    | some href =>
      rw [hl] at hok
      replace hok : Except.bind
          (if n = "a" && matchesGoogleRedirect href then
            match firstQValue (urlQuery href) with
            | some v => Except.ok (setAttrVal "href" v a)
            | none => Except.error "KeyError: q"
          else Except.ok a)
          (fun a2 => do
            let cs2 ← fixGoogleLinksL cs
            Except.ok (Node.elem n a2 cs2)) = Except.ok y := hok
      by_cases hif : (n = "a" && matchesGoogleRedirect href) = true
      · rw [if_pos hif] at hok
        cases hq : firstQValue (urlQuery href) with
        | none =>
          rw [hq] at hok
          exact Except.noConfusion hok
        | some v =>
          rw [hq] at hok
          replace hok : (do
              let cs2 ← fixGoogleLinksL cs
              Except.ok (Node.elem n (setAttrVal "href" v a) cs2)) =
              Except.ok y := hok
          cases hcs : fixGoogleLinksL cs with
          | error e => rw [hcs] at hok; exact Except.noConfusion hok
          | ok cs2 =>
            rw [hcs] at hok
            replace hok : Except.ok (Node.elem n (setAttrVal "href" v a) cs2) =
                Except.ok y := hok
            cases hok
            simp [shapeN, fglL_shape cs cs2 hcs]
      · rw [if_neg hif] at hok
        replace hok : (do
            let cs2 ← fixGoogleLinksL cs
            Except.ok (Node.elem n a cs2)) = Except.ok y := hok
        cases hcs : fixGoogleLinksL cs with
        | error e => rw [hcs] at hok; exact Except.noConfusion hok
        | ok cs2 =>
          rw [hcs] at hok
          replace hok : Except.ok (Node.elem n a cs2) = Except.ok y := hok
          cases hok
          simp [shapeN, fglL_shape cs cs2 hcs]
  | .text s, y, hok => by cases hok; rfl
  | .style r, y, hok => by cases hok; rfl
theorem fglL_shape : (l r : List Node) →
    fixGoogleLinksL l = Except.ok r → shapeL r = shapeL l
  | [], r, hok => by cases hok; rfl
  | x :: xs, r, hok => by
    rw [fixGoogleLinksL] at hok
    cases hx : fixGoogleLinksN x with
    | error e => rw [hx] at hok; exact Except.noConfusion hok
    | ok x2 =>
      rw [hx] at hok
      replace hok : (do
          let xs2 ← fixGoogleLinksL xs
          Except.ok (x2 :: xs2)) = Except.ok r := hok
      cases hxs : fixGoogleLinksL xs with
      | error e => rw [hxs] at hok; exact Except.noConfusion hok
      | ok r2 =>
        rw [hxs] at hok
        replace hok : Except.ok (x2 :: r2) = Except.ok r := hok
        cases hok
        simp [shapeL, fglN_shape x x2 hx, fglL_shape xs r2 hxs]
end

mutual
theorem icbN_shape : (x y : Node) → identifyCodeBlocksN x = Except.ok y →
    shapeN y = shapeN x
  | .elem n a cs, y, hok => by
    rw [identifyCodeBlocksN] at hok
    by_cases hn : n = "pre"
    · rw [if_pos hn] at hok
      cases hj : joinTextChildren cs with
      | error e => rw [hj] at hok; exact Except.noConfusion hok
      | ok code =>
        rw [hj] at hok
        replace hok : Except.ok (Node.elem n
            (if containsSub "import " code || containsSub "def " code then
              setAttrVal "class" "python" a
            else a) cs) = Except.ok y := hok
        cases hok
        rfl
    · rw [if_neg hn] at hok
      replace hok : (do
          let cs2 ← identifyCodeBlocksL cs
          Except.ok (Node.elem n a cs2)) = Except.ok y := hok
      cases hcs : identifyCodeBlocksL cs with
      | error e => rw [hcs] at hok; exact Except.noConfusion hok
      | ok cs2 =>
        rw [hcs] at hok
        replace hok : Except.ok (Node.elem n a cs2) = Except.ok y := hok
        cases hok
        simp [shapeN, icbL_shape cs cs2 hcs]
  | .text s, y, hok => by cases hok; rfl
  | .style r, y, hok => by cases hok; rfl
theorem icbL_shape : (l r : List Node) →
    identifyCodeBlocksL l = Except.ok r → shapeL r = shapeL l
  | [], r, hok => by cases hok; rfl
  | x :: xs, r, hok => by
    rw [identifyCodeBlocksL] at hok
    cases hx : identifyCodeBlocksN x with
    | error e => rw [hx] at hok; exact Except.noConfusion hok
    | ok x2 =>
      rw [hx] at hok
      replace hok : (do
          let xs2 ← identifyCodeBlocksL xs
          Except.ok (x2 :: xs2)) = Except.ok r := hok
      cases hxs : identifyCodeBlocksL xs with
      | error e => rw [hxs] at hok; exact Except.noConfusion hok
      | ok r2 =>
        rw [hxs] at hok
        replace hok : Except.ok (x2 :: r2) = Except.ok r := hok
        cases hok
        simp [shapeL, icbN_shape x x2 hx, icbL_shape xs r2 hxs]
end

mutual
theorem allNodesN_notP_shape : (x : Node) →
    allNodesN notP (shapeN x) = allNodesN notP x
  | .elem n a cs => by
    simp [shapeN, allNodesN, notP, allNodesL_notP_shape cs]
  | .text s => rfl
  | .style r => rfl
theorem allNodesL_notP_shape : (l : List Node) →
    allNodesL notP (shapeL l) = allNodesL notP l
  | [] => rfl
  | x :: xs => by
    simp [shapeL, allNodesL, allNodesN_notP_shape x, allNodesL_notP_shape xs]
end

mutual
theorem noNestedPN_shape : (x : Node) → noNestedPN (shapeN x) = noNestedPN x
  | .elem n a cs => by
    rw [shapeN]
    by_cases hn : n = "p"
    · simp [noNestedPN, hn, pFreeL, allNodesL_notP_shape cs]
    · simp [noNestedPN, hn, noNestedPL_shape cs]
  | .text s => rfl
  | .style r => rfl
theorem noNestedPL_shape : (l : List Node) →
    noNestedPL (shapeL l) = noNestedPL l
  | [] => rfl
  | x :: xs => by
    simp [shapeL, noNestedPL, noNestedPN_shape x, noNestedPL_shape xs]
end

theorem noNestedPL_append (a b : List Node) :
    noNestedPL (a ++ b) = (noNestedPL a && noNestedPL b) := by
  induction a with
  | nil => simp [noNestedPL]
  | cons x xs ih => simp [noNestedPL, ih, Bool.and_assoc]

mutual
theorem pFree_noNestedPN : (x : Node) → allNodesN notP x = true →
    noNestedPN x = true
  | .elem n a cs, h => by
    simp [allNodesN, notP] at h
    rw [noNestedPN, if_neg h.1]
    exact pFree_noNestedPL cs h.2
  | .text s, _ => rfl
  | .style r, _ => rfl
theorem pFree_noNestedPL : (l : List Node) → allNodesL notP l = true →
    noNestedPL l = true
  | [], _ => rfl
  | x :: xs, h => by
    simp [allNodesL] at h
    simp [noNestedPL, pFree_noNestedPN x h.1, pFree_noNestedPL xs h.2]
end

mutual
theorem unwrapFirstTdN_noNestedP : (x : Node) → (out : List Node) →
    noNestedPN x = true → unwrapFirstTdN x = some out → noNestedPL out = true
  | .elem n a cs, out, h, he => by
    rw [unwrapFirstTdN] at he
    by_cases hn : n = "td"
    · rw [if_pos hn] at he
      cases he
      have hnp : ¬(n = "p") := by rw [hn]; simp
      rw [noNestedPN, if_neg hnp] at h
      exact h
    · rw [if_neg hn] at he
      cases hcs : unwrapFirstTdL cs with
      | none => rw [hcs] at he; exact Option.noConfusion he
      | some cs2 =>
        rw [hcs] at he
        cases he
        by_cases hp : n = "p"
        · rw [noNestedPN, if_pos hp] at h
          have h2 : allNodesL notP cs2 = true :=
            unwrapFirstTdL_allNodes notP (fun n a cs cs2 => rfl) cs cs2 h hcs
          simp [noNestedPL, noNestedPN, hp, pFreeL, h2]
        · rw [noNestedPN, if_neg hp] at h
          simp [noNestedPL, noNestedPN, hp,
            unwrapFirstTdL_noNestedP cs cs2 h hcs]
  | .text s, out, h, he => Option.noConfusion he
  | .style r, out, h, he => Option.noConfusion he
theorem unwrapFirstTdL_noNestedP : (l : List Node) → (out : List Node) →
    noNestedPL l = true → unwrapFirstTdL l = some out → noNestedPL out = true
  | [], out, h, he => Option.noConfusion he
  | x :: xs, out, h, he => by
    simp [noNestedPL] at h
    rw [unwrapFirstTdL] at he
    cases hx : unwrapFirstTdN x with
    | some xl =>
      rw [hx] at he
      cases he
      rw [noNestedPL_append]
      simp [unwrapFirstTdN_noNestedP x xl h.1 hx, h.2]
    | none =>
      rw [hx] at he
      cases hxs : unwrapFirstTdL xs with
      | none => rw [hxs] at he; exact Option.noConfusion he
      | some xs2 =>
        rw [hxs] at he
        cases he
        simp [noNestedPL, h.1, unwrapFirstTdL_noNestedP xs xs2 h.2 hxs]
end

mutual
theorem unwrapFirstTrN_noNestedP : (x : Node) → (out : List Node) →
    noNestedPN x = true → unwrapFirstTrN x = some out → noNestedPL out = true
  | .elem n a cs, out, h, he => by
    rw [unwrapFirstTrN] at he
    by_cases hn : n = "tr"
    · rw [if_pos hn] at he
      cases he
      have hnp : ¬(n = "p") := by rw [hn]; simp
      rw [noNestedPN, if_neg hnp] at h
      cases hcs : unwrapFirstTdL cs with
      | none => simpa [hcs] using h
      | some cs2 => simpa [hcs] using unwrapFirstTdL_noNestedP cs cs2 h hcs
    · rw [if_neg hn] at he
      cases hcs : unwrapFirstTrL cs with
      | none => rw [hcs] at he; exact Option.noConfusion he
      | some cs2 =>
        rw [hcs] at he
        cases he
        by_cases hp : n = "p"
        · rw [noNestedPN, if_pos hp] at h
          have h2 : allNodesL notP cs2 = true :=
            unwrapFirstTrL_allNodes notP (fun n a cs cs2 => rfl) cs cs2 h hcs
          simp [noNestedPL, noNestedPN, hp, pFreeL, h2]
        · rw [noNestedPN, if_neg hp] at h
          simp [noNestedPL, noNestedPN, hp,
            unwrapFirstTrL_noNestedP cs cs2 h hcs]
  | .text s, out, h, he => Option.noConfusion he
  | .style r, out, h, he => Option.noConfusion he
theorem unwrapFirstTrL_noNestedP : (l : List Node) → (out : List Node) →
    noNestedPL l = true → unwrapFirstTrL l = some out → noNestedPL out = true
  | [], out, h, he => Option.noConfusion he
  | x :: xs, out, h, he => by
    simp [noNestedPL] at h
    rw [unwrapFirstTrL] at he
    cases hx : unwrapFirstTrN x with
    | some xl =>
      rw [hx] at he
      cases he
      rw [noNestedPL_append]
      simp [unwrapFirstTrN_noNestedP x xl h.1 hx, h.2]
    | none =>
      rw [hx] at he
      cases hxs : unwrapFirstTrL xs with
      | none => rw [hxs] at he; exact Option.noConfusion he
      | some xs2 =>
        rw [hxs] at he
        cases he
        simp [noNestedPL, h.1, unwrapFirstTrL_noNestedP xs xs2 h.2 hxs]
end

mutual
theorem rsctN_noNestedP : (x : Node) → noNestedPN x = true →
    noNestedPL (removeSingleCellTablesN x) = true
  | .elem n a cs, h => by
    rw [removeSingleCellTablesN]
    by_cases hcond : (n = "table" && isSingleCell cs) = true
    · rw [if_pos hcond]
      have hn : n = "table" := by simp at hcond; exact hcond.1
      have hnp : ¬(n = "p") := by rw [hn]; simp
      rw [noNestedPN, if_neg hnp] at h
      unfold singleCellSplice
      cases hu : unwrapFirstTrL cs with
      | none => simpa using h
      | some cs2 => simpa using unwrapFirstTrL_noNestedP cs cs2 h hu
    · rw [if_neg hcond]
      by_cases hp : n = "p"
      · rw [noNestedPN, if_pos hp] at h
        have h2 : allNodesL notP (removeSingleCellTablesL cs) = true :=
          rsctL_allNodes notP (fun n a cs cs2 => rfl) cs h
        simp [noNestedPL, noNestedPN, hp, pFreeL, h2]
      · rw [noNestedPN, if_neg hp] at h
        simp [noNestedPL, noNestedPN, hp, rsctL_noNestedP cs h]
  | .text s, h => by
    have e : removeSingleCellTablesN (Node.text s) = [Node.text s] := rfl
    rw [e]
    rfl
  | .style r, h => by
    have e : removeSingleCellTablesN (Node.style r) = [Node.style r] := rfl
    rw [e]
    rfl
theorem rsctL_noNestedP : (l : List Node) → noNestedPL l = true →
    noNestedPL (removeSingleCellTablesL l) = true
  | [], h => h
  | x :: xs, h => by
    simp [noNestedPL] at h
    rw [removeSingleCellTablesL, noNestedPL_append]
    simp [rsctN_noNestedP x h.1, rsctL_noNestedP xs h.2]
end

theorem mergeTexts_noNestedP : (l : List Node) → noNestedPL l = true →
    noNestedPL (mergeTexts l) = true
  | [], h => h
  | .text s :: rest, h => by
    simp [noNestedPL] at h
    have ih := mergeTexts_noNestedP rest h.2
    rw [mergeTexts]
    cases hm : mergeTexts rest with
    | nil => simp [noNestedPL, noNestedPN]
    | cons y r2 =>
      rw [hm] at ih
      cases y with
      | text t => simpa [noNestedPL, noNestedPN] using ih
      | elem n2 a2 cs2 => simpa [noNestedPL, noNestedPN] using ih
      | style r => simpa [noNestedPL, noNestedPN] using ih
  | .elem n a cs :: rest, h => by
    simp [noNestedPL] at h
    rw [mergeTexts]
    · simp [noNestedPL, h.1, mergeTexts_noNestedP rest h.2]
    · exact fun u hu => Node.noConfusion hu
  | .style r :: rest, h => by
    simp [noNestedPL] at h
    rw [mergeTexts]
    · simp [noNestedPL, h.1, mergeTexts_noNestedP rest h.2]
    · exact fun u hu => Node.noConfusion hu

mutual
theorem smoothL_noNestedP : (l : List Node) → noNestedPL l = true →
    noNestedPL (smoothL l) = true
  | [], h => h
  | x :: xs, h => by
    simp [noNestedPL] at h
    rw [smoothL]
    apply mergeTexts_noNestedP
    simp [noNestedPL]
    exact ⟨smoothN_noNestedP x h.1, smoothL_noNestedP xs h.2⟩
theorem smoothN_noNestedP : (x : Node) → noNestedPN x = true →
    noNestedPN (smoothN x) = true
  | .elem n a cs, h => by
    rw [smoothN]
    by_cases hp : n = "p"
    · rw [noNestedPN, if_pos hp] at h ⊢
      exact smoothL_allNodes notP (fun n a cs cs2 => rfl) (fun s => rfl) cs h
    · rw [noNestedPN, if_neg hp] at h ⊢
      exact smoothL_noNestedP cs h
  | .text s, h => h
  | .style r, h => h
end

mutual
theorem resolveN_noNestedP : (x : Node) → noNestedPN x = true →
    noNestedPN (resolveCodeBlocksN x) = true
  | .elem n a [Node.elem cn ca ck], h => by
    rw [resolveCodeBlocksN]
    by_cases h1 : ((n = "p" || n = "div" || n = "td") && cn = "code") = true
    · rw [if_pos h1]
      have hpre : ¬(("pre" : String) = "p") := by simp
      rw [noNestedPN, if_neg hpre]
      by_cases hp : n = "p"
      · rw [noNestedPN, if_pos hp] at h
        simp [pFreeL, allNodesL, allNodesN] at h
        exact pFree_noNestedPL _
          (resolveBrL_allNodes notP (fun n a cs cs2 => rfl) (fun s => rfl)
            (fun a cs => rfl) ck h.2)
      · rw [noNestedPN, if_neg hp] at h
        simp [noNestedPL] at h
        have hcn : cn = "code" := by simp at h1; exact h1.2
        have hcnp : ¬(cn = "p") := by rw [hcn]; simp
        rw [noNestedPN, if_neg hcnp] at h
        exact resolveBrL_noNestedP ck h
    · rw [if_neg h1]
      by_cases h2 : cn = "code"
      · rw [if_pos h2]
        have hcnp : ¬(cn = "p") := by rw [h2]; simp
        by_cases hp : n = "p"
        · rw [noNestedPN, if_pos hp] at h ⊢
          simp [pFreeL, allNodesL, allNodesN, notP, hcnp] at h ⊢
          exact resolveBrL_allNodes notP (fun n a cs cs2 => rfl) (fun s => rfl)
            (fun a cs => rfl) ck h
        · rw [noNestedPN, if_neg hp] at h ⊢
          simp [noNestedPL] at h ⊢
          rw [noNestedPN, if_neg hcnp] at h
          rw [noNestedPN, if_neg hcnp]
          exact resolveBrL_noNestedP ck h
      · rw [if_neg h2]
        by_cases h3 : (n = "code" && cn = "br") = true
        · rw [if_pos h3]
          have hn : n = "code" := by simp at h3; exact h3.1
          have hnp : ¬(n = "p") := by rw [hn]; simp
          rw [noNestedPN, if_neg hnp]
          simp [noNestedPL, noNestedPN]
        · rw [if_neg h3]
          by_cases hp : n = "p"
          · rw [noNestedPN, if_pos hp] at h ⊢
            simp [pFreeL, allNodesL] at h ⊢
            have := resolveN_allNodes notP (fun n a cs cs2 => rfl)
              (fun s => rfl) (fun a cs => rfl) (Node.elem cn ca ck) h
            simpa using this
          · rw [noNestedPN, if_neg hp] at h ⊢
            simp [noNestedPL] at h ⊢
            exact resolveN_noNestedP (Node.elem cn ca ck) h
  | .elem n a [], h => by
    rw [resolveCodeBlocksN]
    · by_cases hc : n = "code"
      · rw [if_pos hc]
        exact h
      · rw [if_neg hc]
        exact h
    · exact fun cn ca ck hu => by simp at hu
  | .elem n a [Node.text s], h => by
    rw [resolveCodeBlocksN]
    · by_cases hc : n = "code"
      · rw [if_pos hc]
        have hnp : ¬(n = "p") := by rw [hc]; simp
        rw [noNestedPN, if_neg hnp] at h ⊢
        exact resolveBrL_noNestedP [Node.text s] h
      · rw [if_neg hc]
        by_cases hp : n = "p"
        · rw [noNestedPN, if_pos hp] at h ⊢
          exact resolveL_allNodes notP (fun n a cs cs2 => rfl) (fun s => rfl)
            (fun a cs => rfl) [Node.text s] h
        · rw [noNestedPN, if_neg hp] at h ⊢
          exact resolveL_noNestedP [Node.text s] h
    · exact fun cn ca ck hu => by simp at hu
  | .elem n a [Node.style r], h => by
    rw [resolveCodeBlocksN]
    · by_cases hc : n = "code"
      · rw [if_pos hc]
        have hnp : ¬(n = "p") := by rw [hc]; simp
        rw [noNestedPN, if_neg hnp] at h ⊢
        exact resolveBrL_noNestedP [Node.style r] h
      · rw [if_neg hc]
        by_cases hp : n = "p"
        · rw [noNestedPN, if_pos hp] at h ⊢
          exact resolveL_allNodes notP (fun n a cs cs2 => rfl) (fun s => rfl)
            (fun a cs => rfl) [Node.style r] h
        · rw [noNestedPN, if_neg hp] at h ⊢
          exact resolveL_noNestedP [Node.style r] h
    · exact fun cn ca ck hu => by simp at hu
  | .elem n a (c1 :: c2 :: cs), h => by
    rw [resolveCodeBlocksN]
    · by_cases hc : n = "code"
      · rw [if_pos hc]
        have hnp : ¬(n = "p") := by rw [hc]; simp
        rw [noNestedPN, if_neg hnp] at h ⊢
        exact resolveBrL_noNestedP (c1 :: c2 :: cs) h
      · rw [if_neg hc]
        by_cases hp : n = "p"
        · rw [noNestedPN, if_pos hp] at h ⊢
          exact resolveL_allNodes notP (fun n a cs cs2 => rfl) (fun s => rfl)
            (fun a cs => rfl) (c1 :: c2 :: cs) h
        · rw [noNestedPN, if_neg hp] at h ⊢
          exact resolveL_noNestedP (c1 :: c2 :: cs) h
    · exact fun cn ca ck hu => by simp at hu
  | .text s, h => h
  | .style r, h => h
theorem resolveL_noNestedP : (l : List Node) → noNestedPL l = true →
    noNestedPL (resolveCodeBlocksL l) = true
  | [], h => h
  | x :: xs, h => by
    simp [noNestedPL] at h
    rw [resolveCodeBlocksL]
    simp [noNestedPL, resolveN_noNestedP x h.1, resolveL_noNestedP xs h.2]
theorem resolveBrL_noNestedP : (l : List Node) → noNestedPL l = true →
    noNestedPL (resolveCodeBrL l) = true
  | [], h => h
  | .elem n a cs :: xs, h => by
    simp [noNestedPL] at h
    rw [resolveCodeBrL]
    by_cases hbr : n = "br"
    · rw [if_pos hbr]
      simp [noNestedPL, noNestedPN]
      exact resolveBrL_noNestedP xs h.2
    · rw [if_neg hbr]
      simp [noNestedPL, resolveN_noNestedP (Node.elem n a cs) h.1,
        resolveBrL_noNestedP xs h.2]
  | .text s :: xs, h => by
    simp [noNestedPL] at h
    rw [resolveCodeBrL]
    · have e : resolveCodeBlocksN (Node.text s) = Node.text s := rfl
      rw [e]
      simp [noNestedPL, noNestedPN, resolveBrL_noNestedP xs h.2]
    · exact fun n a cs hu => by simp at hu
  | .style r :: xs, h => by
    simp [noNestedPL] at h
    rw [resolveCodeBrL]
    · have e : resolveCodeBlocksN (Node.style r) = Node.style r := rfl
      rw [e]
      simp [noNestedPL, noNestedPN, resolveBrL_noNestedP xs h.2]
    · exact fun n a cs hu => by simp at hu
end

mutual
theorem retagN_noNestedP (clss : List String) (nm : String) (hnm : ¬(nm = "p")) :
    (x : Node) → noNestedPN x = true →
    noNestedPN (retagSpansN clss nm x) = true
  | .elem n a cs, h => by
    rw [retagSpansN]
    by_cases hc : (n = "span" && classMatches clss a) = true
    · rw [if_pos hc]
      have hn : n = "span" := by simp at hc; exact hc.1
      have hnp : ¬(n = "p") := by rw [hn]; simp
      rw [noNestedPN, if_neg hnp] at h
      rw [noNestedPN, if_neg hnm]
      exact retagL_noNestedP clss nm hnm cs h
    · rw [if_neg hc]
      by_cases hp : n = "p"
      · rw [noNestedPN, if_pos hp] at h ⊢
        exact retagL_allNodes clss nm notP (fun n a cs cs2 => rfl)
          (fun a cs => by simp [notP, hnm]) cs h
      · rw [noNestedPN, if_neg hp] at h ⊢
        exact retagL_noNestedP clss nm hnm cs h
  | .text s, h => h
  | .style r, h => h
theorem retagL_noNestedP (clss : List String) (nm : String) (hnm : ¬(nm = "p")) :
    (l : List Node) → noNestedPL l = true →
    noNestedPL (retagSpansL clss nm l) = true
  | [], h => h
  | x :: xs, h => by
    simp [noNestedPL] at h
    rw [retagSpansL]
    simp [noNestedPL, retagN_noNestedP clss nm hnm x h.1,
      retagL_noNestedP clss nm hnm xs h.2]
end

theorem dictAdd_keys_fst (d : List (String × List String)) (k v : String) :
    ∀ k2 ∈ (dictAdd d k v).map Prod.fst, k2 = k ∨ k2 ∈ d.map Prod.fst := by
  intro k2 h
  unfold dictAdd at h
  by_cases hd : d.any (fun q => q.1 = k) = true
  · rw [if_pos hd] at h
    right
    rw [List.map_map] at h
    have e : (Prod.fst ∘ fun p => if p.1 = k then (p.1, p.2 ++ [v]) else p) =
        (Prod.fst : String × List String → String) := by
      funext p
      by_cases hpk : p.1 = k
      · simp [Function.comp, hpk]
      · simp [Function.comp, hpk]
    rw [e] at h
    exact h
  · rw [if_neg hd] at h
    rw [List.map_append, List.mem_append] at h
    cases h with
    | inl h2 => exact Or.inr h2
    | inr h2 =>
      left
      simpa using h2

theorem addBoldProps_keys (sel : String) : (props : List (String × String)) →
    (d d2 : List (String × List String)) →
    addBoldProps sel props d = Except.ok d2 →
    ∀ k2 ∈ d2.map Prod.fst, k2 = "b" ∨ k2 ∈ d.map Prod.fst
  | [], d, d2, hok => by
    cases hok
    exact fun k2 h => Or.inr h
  | (k, v) :: rest, d, d2, hok => by
    rw [addBoldProps] at hok
    by_cases hk : k = "font-weight"
    · rw [if_pos hk] at hok
      cases hi : pyInt v with
      | none => rw [hi] at hok; exact Except.noConfusion hok
      | some nv =>
        rw [hi] at hok
        replace hok : addBoldProps sel rest
            (if nv > 400 then dictAdd d "b" sel else d) = Except.ok d2 := hok
        by_cases hn : nv > 400
        · rw [if_pos hn] at hok
          intro k2 h
          cases addBoldProps_keys sel rest (dictAdd d "b" sel) d2 hok k2 h with
          | inl h2 => exact Or.inl h2
          | inr h2 =>
            cases dictAdd_keys_fst d "b" sel k2 h2 with
            | inl h3 => exact Or.inl h3
            | inr h3 => exact Or.inr h3
        · rw [if_neg hn] at hok
          exact addBoldProps_keys sel rest d d2 hok
    · rw [if_neg hk] at hok
      exact addBoldProps_keys sel rest d d2 hok

theorem addItalicProps_keys (sel : String) : (props : List (String × String)) →
    (d : List (String × List String)) →
    ∀ k2 ∈ (addItalicProps sel props d).map Prod.fst,
      k2 = "i" ∨ k2 ∈ d.map Prod.fst
  | [], d => fun k2 h => Or.inr h
  | (k, v) :: rest, d => by
    intro k2 h
    have e : addItalicProps sel ((k, v) :: rest) d =
        addItalicProps sel rest
          (if k = "font-style" && v = "italic" then dictAdd d "i" sel
           else d) := rfl
    rw [e] at h
    by_cases hc : (k = "font-style" && v = "italic") = true
    · rw [if_pos hc] at h
      cases addItalicProps_keys sel rest (dictAdd d "i" sel) k2 h with
      | inl h2 => exact Or.inl h2
      | inr h2 =>
        cases dictAdd_keys_fst d "i" sel k2 h2 with
        | inl h3 => exact Or.inl h3
        | inr h3 => exact Or.inr h3
    · rw [if_neg hc] at h
      exact addItalicProps_keys sel rest d k2 h

theorem extractSpanStylesGo_keys : (rules : List CssRule) →
    (d d2 : List (String × List String)) →
    extractSpanStylesGo d rules = Except.ok d2 →
    ∀ k2 ∈ d2.map Prod.fst, k2 = "b" ∨ k2 = "i" ∨ k2 ∈ d.map Prod.fst
  | [], d, d2, hok => by
    cases hok
    exact fun k2 h => Or.inr (Or.inr h)
  | r :: rest, d, d2, hok => by
    rw [extractSpanStylesGo] at hok
    cases hb : addBoldProps (selectorClass r.selector) r.props d with
    | error e => rw [hb] at hok; exact Except.noConfusion hok
    | ok d1 =>
      rw [hb] at hok
      replace hok : extractSpanStylesGo
          (addItalicProps (selectorClass r.selector) r.props d1) rest =
          Except.ok d2 := hok
      intro k2 h
      cases extractSpanStylesGo_keys rest _ d2 hok k2 h with
      | inl h2 => exact Or.inl h2
      | inr h2 =>
        cases h2 with
        | inl h3 => exact Or.inr (Or.inl h3)
        | inr h3 =>
          cases addItalicProps_keys (selectorClass r.selector) r.props d1
              k2 h3 with
          | inl h4 => exact Or.inr (Or.inl h4)
          | inr h4 =>
            cases addBoldProps_keys (selectorClass r.selector) r.props d d1
                hb k2 h4 with
            | inl h5 => exact Or.inl h5
            | inr h5 => exact Or.inr (Or.inr h5)

theorem retag_fold_noNestedP : (d : List (String × List String)) →
    (∀ k2 ∈ d.map Prod.fst, ¬(k2 = "p")) → (t : List Node) →
    noNestedPL t = true →
    noNestedPL (d.foldl (fun t p => retagSpansL p.2 p.1 t) t) = true
  | [], _, t, h => h
  | p :: d1, hd, t, h => by
    have e : (p :: d1).foldl (fun t p => retagSpansL p.2 p.1 t) t =
        d1.foldl (fun t p => retagSpansL p.2 p.1 t) (retagSpansL p.2 p.1 t) :=
      rfl
    rw [e]
    exact retag_fold_noNestedP d1 (fun k2 hk => hd k2 (by simp [hk]))
      (retagSpansL p.2 p.1 t)
      (retagL_noNestedP p.2 p.1 (hd p.1 (by simp)) t h)

theorem replaceStyleSpans_noNestedP (l out : List Node)
    (hok : replaceStyleSpans l = Except.ok out)
    (h : noNestedPL l = true) : noNestedPL out = true := by
  unfold replaceStyleSpans at hok
  cases hes : extractSpanStyles l with
  | error e => rw [hes] at hok; exact Except.noConfusion hok
  | ok d =>
    rw [hes] at hok
    replace hok : Except.ok
        (d.foldl (fun t p => retagSpansL p.2 p.1 t) l) = Except.ok out := hok
    cases hok
    apply retag_fold_noNestedP d ?_ l h
    intro k2 hk2 hkp
    have hes2 : extractSpanStylesGo [] (styleRulesL l) = Except.ok d := hes
    cases extractSpanStylesGo_keys (styleRulesL l) [] d hes2 k2 hk2 with
    | inl h2 => rw [hkp] at h2; exact absurd h2 (by decide)
    | inr h2 =>
      cases h2 with
      | inl h3 => rw [hkp] at h3; exact absurd h3 (by decide)
      | inr h3 => simp at h3

theorem fglL_noNestedP (l r : List Node)
    (hok : fixGoogleLinksL l = Except.ok r) (h : noNestedPL l = true) :
    noNestedPL r = true := by
  rw [← noNestedPL_shape r, fglL_shape l r hok, noNestedPL_shape l]
  exact h

theorem removeAttrL_noNestedP (k : String) (l : List Node)
    (h : noNestedPL l = true) : noNestedPL (removeAttrL k l) = true := by
  rw [← noNestedPL_shape (removeAttrL k l), removeAttrL_shape k l,
    noNestedPL_shape l]
  exact h

theorem icbL_noNestedP (l r : List Node)
    (hok : identifyCodeBlocksL l = Except.ok r) (h : noNestedPL l = true) :
    noNestedPL r = true := by
  rw [← noNestedPL_shape r, icbL_shape l r hok, noNestedPL_shape l]
  exact h

theorem backtickSub_pFree (s : String) :
    allNodesL notP (backtickSub s) = true :=
  backtickSub_allNodes notP (fun s => rfl) (fun cs => rfl) s

mutual
theorem fbN_noNestedP : (x : Node) → noNestedPN x = true →
    noNestedPN (fixBackticksN x) = true
  | .elem n a [Node.text s], h => by
    rw [fixBackticksN]
    by_cases hb : containsChar '\u0060' s = true
    · rw [if_pos hb]
      by_cases hp : n = "p"
      · rw [noNestedPN, if_pos hp]
        exact backtickSub_pFree s
      · rw [noNestedPN, if_neg hp]
        exact pFree_noNestedPL (backtickSub s) (backtickSub_pFree s)
    · rw [if_neg hb]
      exact h
  | .elem n a [], h => by
    rw [fixBackticksN]
    · exact h
    · exact fun u hu => by simp at hu
  | .elem n a [Node.elem cn ca ck], h => by
    rw [fixBackticksN]
    · by_cases hp : n = "p"
      · rw [noNestedPN, if_pos hp] at h ⊢
        exact fbL_allNodes notP (fun n a cs cs2 => rfl) (fun s => rfl)
          (fun cs => rfl) [Node.elem cn ca ck] h
      · rw [noNestedPN, if_neg hp] at h ⊢
        exact fbL_noNestedP [Node.elem cn ca ck] h
    · exact fun u hu => by simp at hu
  | .elem n a [Node.style r], h => by
    rw [fixBackticksN]
    · by_cases hp : n = "p"
      · rw [noNestedPN, if_pos hp] at h ⊢
        exact fbL_allNodes notP (fun n a cs cs2 => rfl) (fun s => rfl)
          (fun cs => rfl) [Node.style r] h
      · rw [noNestedPN, if_neg hp] at h ⊢
        exact fbL_noNestedP [Node.style r] h
    · exact fun u hu => by simp at hu
  | .elem n a (c1 :: c2 :: cs), h => by
    rw [fixBackticksN]
    · by_cases hp : n = "p"
      · rw [noNestedPN, if_pos hp] at h ⊢
        exact fbL_allNodes notP (fun n a cs cs2 => rfl) (fun s => rfl)
          (fun cs => rfl) (c1 :: c2 :: cs) h
      · rw [noNestedPN, if_neg hp] at h ⊢
        exact fbL_noNestedP (c1 :: c2 :: cs) h
    · exact fun u hu => by simp at hu
  | .text s, h => h
  | .style r, h => h
theorem fbL_noNestedP : (l : List Node) → noNestedPL l = true →
    noNestedPL (fixBackticksL l) = true
  | [], h => h
  | x :: xs, h => by
    simp [noNestedPL] at h
    rw [fixBackticksL]
    simp [noNestedPL, fbN_noNestedP x h.1, fbL_noNestedP xs h.2]
end

mutual
theorem uwsN_noNestedP : (x : Node) → noNestedPN x = true →
    noNestedPL (unwrapSpansN x) = true
  | .elem n a cs, h => by
    rw [unwrapSpansN]
    by_cases hn : n = "span"
    · rw [if_pos hn]
      have hnp : ¬(n = "p") := by rw [hn]; simp
      rw [noNestedPN, if_neg hnp] at h
      exact uwsL_noNestedP cs h
    · rw [if_neg hn]
      by_cases hp : n = "p"
      · rw [noNestedPN, if_pos hp] at h
        have h2 : allNodesL notP (unwrapSpansL cs) = true :=
          uwsL_allNodes notP (fun n a cs cs2 => rfl) cs h
        simp [noNestedPL, noNestedPN, hp, pFreeL, h2]
      · rw [noNestedPN, if_neg hp] at h
        simp [noNestedPL, noNestedPN, hp, uwsL_noNestedP cs h]
  | .text s, h => by
    have e : unwrapSpansN (Node.text s) = [Node.text s] := rfl
    rw [e]
    rfl
  | .style r, h => by
    have e : unwrapSpansN (Node.style r) = [Node.style r] := rfl
    rw [e]
    rfl
theorem uwsL_noNestedP : (l : List Node) → noNestedPL l = true →
    noNestedPL (unwrapSpansL l) = true
  | [], h => h
  | x :: xs, h => by
    simp [noNestedPL] at h
    rw [unwrapSpansL, noNestedPL_append]
    simp [uwsN_noNestedP x h.1, uwsL_noNestedP xs h.2]
end

theorem noEmptyParaL_append (a b : List Node) :
    noEmptyParaL (a ++ b) = (noEmptyParaL a && noEmptyParaL b) := by
  induction a with
  | nil => simp [noEmptyParaL]
  | cons x xs ih => simp [noEmptyParaL, ih, Bool.and_assoc]

theorem allNodesN_self (P : Node → Bool) (x : Node)
    (h : allNodesN P x = true) : P x = true := by
  cases x with
  | elem n a cs => simp [allNodesN] at h; exact h.1
  | text s => exact h
  | style r => exact h

theorem repsN_ne_nil (x : Node) (hx : notP x = true) :
    removeEmptyPsN x ≠ [] := by
  cases x with
  | elem n a cs =>
    simp [notP] at hx
    rw [removeEmptyPsN]
    have hc : ¬((n = "p" && cs.isEmpty) = true) := by simp [hx]
    rw [if_neg hc]
    simp
  | text s =>
    have e : removeEmptyPsN (Node.text s) = [Node.text s] := rfl
    rw [e]
    simp
  | style r =>
    have e : removeEmptyPsN (Node.style r) = [Node.style r] := rfl
    rw [e]
    simp

theorem repsL_ne_nil (l : List Node) (h : allNodesL notP l = true)
    (hne : l ≠ []) : removeEmptyPsL l ≠ [] := by
  cases l with
  | nil => exact absurd rfl hne
  | cons x xs =>
    simp [allNodesL] at h
    rw [removeEmptyPsL]
    intro hc
    rcases List.append_eq_nil.mp hc with ⟨h1, h2⟩
    exact repsN_ne_nil x (allNodesN_self notP x h.1) h1

mutual
theorem pFree_noEmptyParaN : (x : Node) → allNodesN notP x = true →
    noEmptyParaN x = true
  | .elem n a cs, h => by
    simp [allNodesN, notP] at h
    have hc : ¬((n = "p" && cs.isEmpty) = true) := by simp [h.1]
    rw [noEmptyParaN, if_neg hc]
    exact pFree_noEmptyParaL cs h.2
  | .text s, _ => rfl
  | .style r, _ => rfl
theorem pFree_noEmptyParaL : (l : List Node) → allNodesL notP l = true →
    noEmptyParaL l = true
  | [], _ => rfl
  | x :: xs, h => by
    simp [allNodesL] at h
    simp [noEmptyParaL, pFree_noEmptyParaN x h.1, pFree_noEmptyParaL xs h.2]
end

mutual
theorem reps_noEmptyParaN : (x : Node) → noNestedPN x = true →
    noEmptyParaL (removeEmptyPsN x) = true
  | .elem n a cs, h => by
    rw [removeEmptyPsN]
    by_cases hc : (n = "p" && cs.isEmpty) = true
    · rw [if_pos hc]
      rfl
    · rw [if_neg hc]
      by_cases hp : n = "p"
      · rw [noNestedPN, if_pos hp] at h
        have hcs : ¬(cs.isEmpty = true) := by
          intro hemp
          exact hc (by simp [hp, hemp])
        have h2 : allNodesL notP (removeEmptyPsL cs) = true :=
          repsL_allNodes notP (fun n a cs cs2 => rfl) cs h
        have hne : removeEmptyPsL cs ≠ [] := by
          apply repsL_ne_nil cs h
          intro hnil
          rw [hnil] at hcs
          exact hcs rfl
        have hne2 : ¬(((removeEmptyPsL cs).isEmpty) = true) := by
          simpa [List.isEmpty_iff] using hne
        simp [noEmptyParaL, noEmptyParaN, hp, hne2]
        · exact pFree_noEmptyParaL (removeEmptyPsL cs) h2
      · rw [noNestedPN, if_neg hp] at h
        have hc2 : ¬((n = "p" && (removeEmptyPsL cs).isEmpty) = true) := by
          simp [hp]
        simp [noEmptyParaL, noEmptyParaN, hc2]
        · exact reps_noEmptyParaL cs h
  | .text s, h => by
    have e : removeEmptyPsN (Node.text s) = [Node.text s] := rfl
    rw [e]
    rfl
  | .style r, h => by
    have e : removeEmptyPsN (Node.style r) = [Node.style r] := rfl
    rw [e]
    rfl
theorem reps_noEmptyParaL : (l : List Node) → noNestedPL l = true →
    noEmptyParaL (removeEmptyPsL l) = true
  | [], h => h
  | x :: xs, h => by
    simp [noNestedPL] at h
    rw [removeEmptyPsL, noEmptyParaL_append]
    simp [reps_noEmptyParaN x h.1, reps_noEmptyParaL xs h.2]
end

/-- C1 counterexample: identify_code_blocks runs after remove_classes and
writes a class attribute back onto a python pre, and a p whose only child
was an empty p survives as an empty paragraph (the removal loop snapshots
its candidates before unwrapping), so neither the no-class nor the
no-empty-paragraph guarantee holds of the pipeline output in general. -/
theorem c1_pipeline_counterexample :
    processGoogleDocHtml
        [Node.elem "pre" [] [Node.text "import os"],
          Node.elem "p" [] [Node.elem "p" [] []]] =
      Except.ok
        [Node.elem "pre" [("class", "python")] [Node.text "import os"],
          Node.elem "p" [] []] ∧
    noAttrL "class"
      [Node.elem "pre" [("class", "python")] [Node.text "import os"],
        Node.elem "p" [] []] = false ∧
    noEmptyParaL
      [Node.elem "pre" [("class", "python")] [Node.text "import os"],
        Node.elem "p" [] []] = false :=
  ⟨rfl, rfl, rfl⟩

/-- C1 amended: when the pipeline returns normally, its output carries no
id and no style attribute anywhere, every remaining class attribute is the
python marker that identify_code_blocks writes onto a pre after the class
stripper has run, and no span element remains; no empty paragraph remains
either, provided no p was nested inside another p in the input (as
formalized here, also provided the input holds no building-block start
sentinel and its stylesheet declares no code font, so the two code sweeps
leave the paragraph structure in place).  The document text is further
required to hold no markup metacharacter: fix_backticks re-parses any
text containing a backtick as an HTML fragment, and a less-than sign or
ampersand in such text makes the real parser splice in new elements -
possibly carrying id, class or style attributes, after the strippers have
already run - which would break every attribute guarantee; on
metacharacter-free text the re-parse is literal and the guarantees
hold. -/
theorem c1_pipeline_invariants (doc out : List Node)
    (h1 : allNodesL noStartSentinelText doc = true)
    (h2 : allNodesL noCodeFontRule doc = true)
    (hpt : allNodesL plainText doc = true)
    (hnp : noNestedPL doc = true)
    (h5 : processGoogleDocHtml doc = Except.ok out) :
    noAttrL "id" out = true ∧ noAttrL "style" out = true ∧
    pythonClassOnlyL out = true ∧ spanFreeL out = true ∧
    noEmptyParaL out = true := by
  have hs1 : allNodesL noStartSentinelText (removeSingleCellTablesL doc) = true :=
    rsctL_allNodes noStartSentinelText (fun n a cs cs2 => rfl) doc h1
  have hc1 : allNodesL noCodeFontRule (removeSingleCellTablesL doc) = true :=
    rsctL_allNodes noCodeFontRule (fun n a cs cs2 => rfl) doc h2
  have hbf : blockFreeL (removeSingleCellTablesL doc) = true :=
    blockFree_of_sentinelFree _ hs1
  have hnp1 : noNestedPL (removeSingleCellTablesL doc) = true :=
    rsctL_noNestedP doc hnp
  have hnp3 : noNestedPL (markCodeBlocks (removeSingleCellTablesL doc)) = true := by
    unfold markCodeBlocks
    rw [extractCodeStyles_nil _ hc1, markCodeSpans_nil [] _, List.reverse_nil,
      List.nil_append]
    exact resolveL_noNestedP _ (smoothL_noNestedP _ hnp1)
  simp only [processGoogleDocHtml] at h5
  rw [pbbcL_id _ hbf] at h5
  cases hr : replaceStyleSpans (markCodeBlocks (removeSingleCellTablesL doc)) with
  | error e => rw [hr] at h5; exact Except.noConfusion h5
  | ok d4 =>
    rw [hr] at h5
    have hnp4 : noNestedPL d4 = true :=
      replaceStyleSpans_noNestedP _ d4 hr hnp3
    replace h5 : (do
        let d5 ← fixGoogleLinksL d4
        let d9 ← identifyCodeBlocksL (removeStyles (removeClasses (removeIds d5)))
        Except.ok (removeEmptyParas (fixBackticks d9))) = Except.ok out := h5
    cases hg : fixGoogleLinksL d4 with
    | error e => rw [hg] at h5; exact Except.noConfusion h5
    | ok d5 =>
      rw [hg] at h5
      have hnp5 : noNestedPL d5 = true := fglL_noNestedP d4 d5 hg hnp4
      have hid6 : allNodesL (noAttrPred "id") (removeAttrL "id" d5) = true :=
        removeAttrL_establishes "id" d5
      have hid7 : allNodesL (noAttrPred "id")
          (removeAttrL "class" (removeAttrL "id" d5)) = true :=
        removeAttrL_keeps_noAttr "id" "class" _ hid6
      have hid8 : allNodesL (noAttrPred "id")
          (removeAttrL "style" (removeAttrL "class" (removeAttrL "id" d5))) =
          true :=
        removeAttrL_keeps_noAttr "id" "style" _ hid7
      have hst8 : allNodesL (noAttrPred "style")
          (removeAttrL "style" (removeAttrL "class" (removeAttrL "id" d5))) =
          true :=
        removeAttrL_establishes "style" _
      have hcl7 : allNodesL (noAttrPred "class")
          (removeAttrL "class" (removeAttrL "id" d5)) = true :=
        removeAttrL_establishes "class" _
      have hcl8 : allNodesL (noAttrPred "class")
          (removeAttrL "style" (removeAttrL "class" (removeAttrL "id" d5))) =
          true :=
        removeAttrL_keeps_noAttr "class" "style" _ hcl7
      have hnp8 : noNestedPL
          (removeAttrL "style" (removeAttrL "class" (removeAttrL "id" d5))) =
          true :=
        removeAttrL_noNestedP "style" _
          (removeAttrL_noNestedP "class" _ (removeAttrL_noNestedP "id" _ hnp5))
      replace h5 : (do
          let d9 ← identifyCodeBlocksL (removeStyles (removeClasses (removeIds d5)))
          Except.ok (removeEmptyParas (fixBackticks d9))) = Except.ok out := h5
      cases hi : identifyCodeBlocksL (removeStyles (removeClasses (removeIds d5))) with
      | error e => rw [hi] at h5; exact Except.noConfusion h5
      | ok d9 =>
        rw [hi] at h5
        replace h5 : Except.ok (removeEmptyParas (fixBackticks d9)) =
            Except.ok out := h5
        cases h5
        have hid9 : allNodesL (noAttrPred "id") d9 = true :=
          icbL_keeps_noAttr "id" (by decide) _ d9 hi hid8
        have hst9 : allNodesL (noAttrPred "style") d9 = true :=
          icbL_keeps_noAttr "style" (by decide) _ d9 hi hst8
        have hcl9 : allNodesL classOk d9 = true := icbL_classOk _ d9 hi hcl8
        have hnp9 : noNestedPL d9 = true := icbL_noNestedP _ d9 hi hnp8
        have hid10 : allNodesL (noAttrPred "id") (fixBackticks d9) = true := by
          unfold fixBackticks
          exact fbL_allNodes (noAttrPred "id") (fun n a cs cs2 => rfl)
            (fun s => rfl) (fun cs => rfl) _
            (smoothL_allNodes (noAttrPred "id") (fun n a cs cs2 => rfl)
              (fun s => rfl) _ hid9)
        have hst10 : allNodesL (noAttrPred "style") (fixBackticks d9) = true := by
          unfold fixBackticks
          exact fbL_allNodes (noAttrPred "style") (fun n a cs cs2 => rfl)
            (fun s => rfl) (fun cs => rfl) _
            (smoothL_allNodes (noAttrPred "style") (fun n a cs cs2 => rfl)
              (fun s => rfl) _ hst9)
        have hcl10 : allNodesL classOk (fixBackticks d9) = true := by
          unfold fixBackticks
          exact fbL_allNodes classOk (fun n a cs cs2 => rfl)
            (fun s => rfl) (fun cs => rfl) _
            (smoothL_allNodes classOk (fun n a cs cs2 => rfl)
              (fun s => rfl) _ hcl9)
        have hnp10 : noNestedPL (fixBackticks d9) = true := by
          unfold fixBackticks
          exact fbL_noNestedP _ (smoothL_noNestedP _ hnp9)
        refine ⟨?_, ?_, ?_, ?_, ?_⟩
        · show allNodesL (noAttrPred "id")
            (removeEmptyPsL (unwrapSpansL (fixBackticks d9))) = true
          exact repsL_allNodes (noAttrPred "id") (fun n a cs cs2 => rfl) _
            (uwsL_allNodes (noAttrPred "id") (fun n a cs cs2 => rfl) _ hid10)
        · show allNodesL (noAttrPred "style")
            (removeEmptyPsL (unwrapSpansL (fixBackticks d9))) = true
          exact repsL_allNodes (noAttrPred "style") (fun n a cs cs2 => rfl) _
            (uwsL_allNodes (noAttrPred "style") (fun n a cs cs2 => rfl) _ hst10)
        · show allNodesL classOk
            (removeEmptyPsL (unwrapSpansL (fixBackticks d9))) = true
          exact repsL_allNodes classOk (fun n a cs cs2 => rfl) _
            (uwsL_allNodes classOk (fun n a cs cs2 => rfl) _ hcl10)
        · show allNodesL spanOk
            (removeEmptyPsL (unwrapSpansL (fixBackticks d9))) = true
          exact repsL_allNodes spanOk (fun n a cs cs2 => rfl) _
            (uwsL_spanFree _)
        · show noEmptyParaL
            (removeEmptyPsL (unwrapSpansL (fixBackticks d9))) = true
          exact reps_noEmptyParaL _ (uwsL_noNestedP _ hnp10)

/-- C1 amended, witness: a paragraph with an id attribute and a text child
comes out of the pipeline stripped of the attribute and satisfying every
guarantee of the amended claim. -/
theorem c1_pipeline_invariants_witness :
    noAttrL "id" [Node.elem "p" [] [Node.text "hi"]] = true ∧
    noAttrL "style" [Node.elem "p" [] [Node.text "hi"]] = true ∧
    pythonClassOnlyL [Node.elem "p" [] [Node.text "hi"]] = true ∧
    spanFreeL [Node.elem "p" [] [Node.text "hi"]] = true ∧
    noEmptyParaL [Node.elem "p" [] [Node.text "hi"]] = true :=
  c1_pipeline_invariants [Node.elem "p" [("id", "x")] [Node.text "hi"]]
    [Node.elem "p" [] [Node.text "hi"]] rfl rfl rfl rfl rfl

end DocToMd